import Mathlib

/-!
Verification of the spectral-differentiation core of the
compute-okuboweiss-field repository (src/src/functions.py).

The embedding models numpy arrays as lists: a 1D real array is a
List ℝ and a 2D array is a List (List ℝ) of rows (axis 0 indexes rows,
axis 1 indexes columns, as in numpy).  Machine floats are modelled by
exact real numbers.  Library calls that raise on malformed input
(scipy fft and ifft reject length-0 input; indexing array[0] of an
empty array raises) are modelled with Option: none stands for a raised
exception.  The discrete Fourier transform of the fft and ifft library
calls is embedded by its defining sums, with the numpy and scipy
conventions: fft has a negative exponent and no normalization, ifft
has a positive exponent and a 1/N factor, and np.fft.fftfreq(N) lists
k/N for k below (N+1)/2 and (k-N)/N above.
-/

/-- Frequency numerator of np.fft.fftfreq(N) at index k: the signed mode
index, k for 2k < N and k - N otherwise. -/
def signedIdx (N k : ℕ) : ℤ := if 2 * k < N then (k : ℤ) else (k : ℤ) - N

/-- Frequency index in the ordering stated by the spec: non-negative
frequencies k on the lower half of the index range, negative frequencies
k - N on the upper half. -/
def specFreqIdx (N k : ℕ) : ℤ := if k < (N + 1) / 2 then (k : ℤ) else (k : ℤ) - N

/-- Root-of-unity power: eN N t = exp(2 pi i t / N). -/
noncomputable def eN (N : ℕ) (t : ℤ) : ℂ :=
  Complex.exp (2 * Real.pi * Complex.I * t / N)

/-- Embeds np.fft.fftfreq(N, d=1): the list of sample frequencies
(signed mode index divided by N). -/
noncomputable def npFftfreq (N : ℕ) : List ℝ :=
  (List.range N).map (fun k => (signedIdx N k : ℝ) / N)

/-- Embeds scipy.fft.fft on a 1D complex array: the unnormalized forward
DFT.  The library raises ValueError on a length-0 input, modelled by
none. -/
noncomputable def sfft (x : List ℂ) : Option (List ℂ) :=
  if x.length = 0 then none
  else some ((List.range x.length).map (fun j =>
    ∑ k ∈ Finset.range x.length, x.getD k 0 * eN x.length (-((j * k : ℕ) : ℤ))))

/-- Embeds scipy.fft.ifft on a 1D complex array: the inverse DFT with a
1/N factor.  The library raises ValueError on a length-0 input, modelled
by none. -/
noncomputable def sifft (x : List ℂ) : Option (List ℂ) :=
  if x.length = 0 then none
  else some ((List.range x.length).map (fun j =>
    (∑ k ∈ Finset.range x.length, x.getD k 0 * eN x.length ((j * k : ℕ) : ℤ)) /
      (x.length : ℂ)))

/-- Embeds spectralDeriv (src/src/functions.py lines 29-44):
N = array.shape[0]; freqs = np.fft.fftfreq(N, d=1) * 2 * np.pi;
return np.real(ifft(1j * freqs * fft(array))). -/
noncomputable def spectralDeriv (x : List ℝ) : Option (List ℝ) :=
  (sfft (x.map Complex.ofReal)).bind (fun X =>
    (sifft ((List.range x.length).map (fun k =>
        Complex.I * (((npFftfreq x.length).getD k 0 * (2 * Real.pi) : ℝ) : ℂ) *
          X.getD k 0))).map (fun z => z.map Complex.re))

/-- Value of the forward DFT of a real list at frequency index k. -/
noncomputable def dftVal (x : List ℝ) (k : ℕ) : ℂ :=
  ∑ m ∈ Finset.range x.length, (x.getD m 0 : ℂ) * eN x.length (-((k * m : ℕ) : ℤ))

/-- Spectral-derivative multiplier i * (2 pi k / N) at mode k, with the
signed fftfreq index. -/
noncomputable def wI (N k : ℕ) : ℂ :=
  Complex.I * ((2 * Real.pi * ((signedIdx N k : ℝ) / N) : ℝ) : ℂ)

/-- Closed form of the j-th entry of the spectral derivative of x. -/
noncomputable def sdVal (x : List ℝ) (j : ℕ) : ℝ :=
  ((∑ k ∈ Finset.range x.length,
      wI x.length k * dftVal x k * eN x.length ((j * k : ℕ) : ℤ)) /
    (x.length : ℂ)).re

/-- Closed form of the full spectral derivative of x (what spectralDeriv
returns on a nonempty input). -/
noncomputable def sdF (x : List ℝ) : List ℝ := (List.range x.length).map (sdVal x)

/-- A 2D list is rectangular with row length M. -/
def Rect (m : List (List ℝ)) (M : ℕ) : Prop := ∀ r ∈ m, r.length = M

instance (m : List (List ℝ)) (M : ℕ) : Decidable (Rect m M) :=
  List.decidableBAll (fun r : List ℝ => r.length = M) m

/-- Embeds the numpy transpose array.T of a rectangular 2D array: row j of
the transpose is column j of the input.  The number of columns is read
off the first row, as the shape of a numpy array determines it. -/
def transposeL (m : List (List ℝ)) : List (List ℝ) :=
  (List.range (m.headD []).length).map (fun j => m.map (fun r => r.getD j 0))

/-- Column j of a 2D list. -/
def colD (m : List (List ℝ)) (j : ℕ) : List ℝ := m.map (fun r => r.getD j 0)

/-- Row-by-row spectral differentiation: the loop of ddx (and of ddy after
its transpose), which calls spectralDeriv on each row in order and stacks
the results; a failure in any row propagates. -/
noncomputable def sdRows : List (List ℝ) → Option (List (List ℝ))
  | [] => some []
  | r :: rs =>
    match spectralDeriv r, sdRows rs with
    | some d, some ds => some (d :: ds)
    | _, _ => none

/-- Embeds ddx (src/src/functions.py lines 47-62): spectralDeriv applied
to every row.  Indexing array[0] of an array with no rows raises,
modelled by none. -/
noncomputable def ddx (m : List (List ℝ)) : Option (List (List ℝ)) :=
  if m.length = 0 then none else sdRows m

/-- Embeds ddy (src/src/functions.py lines 65-82): transpose, apply
spectralDeriv to every row of the transpose, transpose back. -/
noncomputable def ddy (m : List (List ℝ)) : Option (List (List ℝ)) :=
  if (transposeL m).length = 0 then none
  else Option.map transposeL (sdRows (transposeL m))

/-- Broadcast index: a length-1 axis repeats its single entry. -/
def bIdx (n i : ℕ) : ℕ := if n = 1 then 0 else i

/-- Embeds numpy elementwise subtraction of two 2D arrays, including
numpy broadcasting: axes must agree or have length 1, otherwise the
operation raises (none).  The result shape is the elementwise max. -/
def npSub2 (a b : List (List ℝ)) : Option (List (List ℝ)) :=
  let n1 := a.length
  let m1 := (a.headD []).length
  let n2 := b.length
  let m2 := (b.headD []).length
  if (n1 = n2 ∨ n1 = 1 ∨ n2 = 1) ∧ (m1 = m2 ∨ m1 = 1 ∨ m2 = 1) then
    some ((List.range (max n1 n2)).map (fun i => (List.range (max m1 m2)).map (fun j =>
      (a.getD (bIdx n1 i) []).getD (bIdx m1 j) 0 -
        (b.getD (bIdx n2 i) []).getD (bIdx m2 j) 0)))
  else none

/-- Plain elementwise subtraction of two same-shape 2D lists. -/
def sub2 (a b : List (List ℝ)) : List (List ℝ) :=
  List.zipWith (fun r s => List.zipWith (fun p q => p - q) r s) a b

/-- Elementwise negation of a 2D list (numpy unary minus). -/
def neg2 (m : List (List ℝ)) : List (List ℝ) := m.map (fun r => r.map (fun a => -a))

/-- Embeds getVorticity (src/src/functions.py lines 85-99):
omega = ddx(vy) - ddy(vx).  There is no shape check in the source; the
subtraction is the numpy broadcasting subtraction. -/
noncomputable def getVorticity (vx vy : List (List ℝ)) : Option (List (List ℝ)) := do
  let a ← ddx vy
  let b ← ddy vx
  npSub2 a b

/-- Maximum absolute value over all entries of a 2D list, as computed by
np.max(np.abs(m)) for a nonempty array (folds of max seeded at 0, sound
here since absolute values are nonnegative). -/
def maxAbs2 (m : List (List ℝ)) : ℝ :=
  (m.map (fun r => (r.map (fun a => |a|)).foldr max 0)).foldr max 0

open Classical in
/-- Embeds getRandomStreamFunction (src/src/functions.py lines 4-26).
The library stages np.random.rand(N, N) and scipy gaussian_filter are
external collaborators; the argument pattern stands for their combined
output gaussian_filter(2 * np.random.rand(N, N) - 1, sigma, mode=wrap).
The repository logic embedded here is the zero-maximum check (raise
ValueError, modelled by none) and the normalization psi = pattern / max. -/
noncomputable def getRandomStreamFunction (pattern : List (List ℝ)) :
    Option (List (List ℝ)) :=
  if maxAbs2 pattern = 0 then none
  else some (pattern.map (fun r => r.map (fun a => a / maxAbs2 pattern)))

/-- Embeds scipy.fftpack.fft2 on a real 2D array of shape (N, M): the
unnormalized 2D DFT.  -/
noncomputable def fft2L (ψ : List (List ℝ)) : List (List ℂ) :=
  (List.range ψ.length).map (fun r => (List.range (ψ.headD []).length).map (fun c =>
    ∑ a ∈ Finset.range ψ.length, ∑ b ∈ Finset.range (ψ.headD []).length,
      ((ψ.getD a []).getD b 0 : ℂ) * eN ψ.length (-((r * a : ℕ) : ℤ)) *
        eN (ψ.headD []).length (-((c * b : ℕ) : ℤ))))

/-- Embeds np.real(scipy.fftpack.ifft2(F)) on a 2D complex array: the
2D inverse DFT with 1/(N*M) normalization, followed by taking real
parts. -/
noncomputable def ifft2reL (F : List (List ℂ)) : List (List ℝ) :=
  (List.range F.length).map (fun a => (List.range (F.headD []).length).map (fun b =>
    ((∑ r ∈ Finset.range F.length, ∑ c ∈ Finset.range (F.headD []).length,
        (F.getD r []).getD c 0 * eN F.length ((a * r : ℕ) : ℤ) *
          eN (F.headD []).length ((b * c : ℕ) : ℤ)) /
      ((F.length : ℂ) * ((F.headD []).length : ℂ))).re))

/-- Internal second partial psi_xx of getOkuboWeiss
(src/src/functions.py line 124): np.real(ifft2((2 pi 1j kx)**2 * psi_hat)).
In the source, kx = fftfreq(N).reshape(-1,1), ky = fftfreq(N).reshape(1,-1)
and kx, ky = np.meshgrid(kx, ky); under the numpy default xy indexing the
inputs are flattened, the first output varies along axis 1 and the second
along axis 0, so the grid values are kx[r][c] = fftfreq(N)[c] and
ky[r][c] = fftfreq(N)[r], which appear below as getD c 0 and getD r 0 of
npFftfreq. -/
noncomputable def psiXX (ψ : List (List ℝ)) : List (List ℝ) :=
  ifft2reL ((List.range ψ.length).map (fun r => (List.range ψ.length).map (fun c =>
    (2 * Real.pi * Complex.I * (((npFftfreq ψ.length).getD c 0 : ℝ) : ℂ)) ^ 2 *
      ((fft2L ψ).getD r []).getD c 0)))

/-- Internal second partial psi_yy of getOkuboWeiss
(src/src/functions.py line 125): np.real(ifft2((2 pi 1j ky)**2 * psi_hat)),
with ky[r][c] = fftfreq(N)[r] as explained at psiXX. -/
noncomputable def psiYY (ψ : List (List ℝ)) : List (List ℝ) :=
  ifft2reL ((List.range ψ.length).map (fun r => (List.range ψ.length).map (fun c =>
    (2 * Real.pi * Complex.I * (((npFftfreq ψ.length).getD r 0 : ℝ) : ℂ)) ^ 2 *
      ((fft2L ψ).getD r []).getD c 0)))

/-- Internal mixed partial psi_xy of getOkuboWeiss
(src/src/functions.py line 123):
np.real(ifft2((2 pi 1j kx) * (2 pi 1j ky) * psi_hat)), with
kx[r][c] = fftfreq(N)[c] and ky[r][c] = fftfreq(N)[r] as explained at
psiXX. -/
noncomputable def psiXY (ψ : List (List ℝ)) : List (List ℝ) :=
  ifft2reL ((List.range ψ.length).map (fun r => (List.range ψ.length).map (fun c =>
    (2 * Real.pi * Complex.I * (((npFftfreq ψ.length).getD c 0 : ℝ) : ℂ)) *
      (2 * Real.pi * Complex.I * (((npFftfreq ψ.length).getD r 0 : ℝ) : ℂ)) *
      ((fft2L ψ).getD r []).getD c 0)))

/-- Embeds getOkuboWeiss (src/src/functions.py lines 102-130):
Q = psi_xy * psi_xy - psi_xx * psi_yy, with the three second partials
computed in spectral space from one forward 2D transform (see psiXX,
psiYY, psiXY).  The 2D transform raises on an array with an empty axis,
modelled by none. -/
noncomputable def getOkuboWeiss (ψ : List (List ℝ)) : Option (List (List ℝ)) :=
  if ψ.length = 0 ∨ (ψ.headD []).length = 0 then none
  else
    some ((List.range ψ.length).map (fun a => (List.range ψ.length).map (fun b =>
      ((psiXY ψ).getD a []).getD b 0 * ((psiXY ψ).getD a []).getD b 0 -
        ((psiXX ψ).getD a []).getD b 0 * ((psiYY ψ).getD a []).getD b 0)))

/-- Spec-side formula for claim C3: the real part of the inverse DFT of
the forward DFT with the coefficient at frequency index k multiplied by
i * (2 pi k / N), k in the standard FFT frequency ordering
(non-negative on the lower half of the index range, negative on the
upper half). -/
noncomputable def specSD (x : List ℝ) : List ℝ :=
  (List.range x.length).map (fun j =>
    ((∑ k ∈ Finset.range x.length,
        Complex.I * ((2 * Real.pi * (specFreqIdx x.length k : ℝ) / x.length : ℝ) : ℂ) *
          dftVal x k * eN x.length ((j * k : ℕ) : ℤ)) /
      (x.length : ℂ)).re)

/-- Spec-side formula for claim C4: Q = psi_xy^2 - psi_xx * psi_yy, the
three second partials obtained from one forward 2D Fourier transform of
psi and three inverse transforms whose coefficients at position
(row, col) are multiplied by (i 2 pi kx)(i 2 pi ky), (i 2 pi kx)^2 and
(i 2 pi ky)^2 respectively, where kx varies along the column axis and ky
along the row axis, each with angular frequency 2 pi k / N in standard
FFT mode ordering. -/
noncomputable def owSpec (ψ : List (List ℝ)) : List (List ℝ) :=
  let N := ψ.length
  let wx : ℕ → ℂ := fun c => Complex.I * ((2 * Real.pi * (specFreqIdx N c : ℝ) / N : ℝ) : ℂ)
  let wy : ℕ → ℂ := fun r => Complex.I * ((2 * Real.pi * (specFreqIdx N r : ℝ) / N : ℝ) : ℂ)
  let pxy := ifft2reL ((List.range N).map (fun r => (List.range N).map (fun c =>
    wx c * wy r * ((fft2L ψ).getD r []).getD c 0)))
  let pxx := ifft2reL ((List.range N).map (fun r => (List.range N).map (fun c =>
    wx c ^ 2 * ((fft2L ψ).getD r []).getD c 0)))
  let pyy := ifft2reL ((List.range N).map (fun r => (List.range N).map (fun c =>
    wy r ^ 2 * ((fft2L ψ).getD r []).getD c 0)))
  (List.range N).map (fun a => (List.range N).map (fun b =>
    (pxy.getD a []).getD b 0 ^ 2 - (pxx.getD a []).getD b 0 * (pyy.getD a []).getD b 0))

/-- One-dimensional spectral kernel with a general mode multiplier g:
entry (x, y) of the matrix (1/N) * Finv diag(g) F. -/
noncomputable def Kker (g : ℕ → ℂ) (N x y : ℕ) : ℂ :=
  (∑ k ∈ Finset.range N, g k * eN N ((x * k : ℕ) : ℤ) * eN N (-((k * y : ℕ) : ℤ))) / N

/-- Constant-one mode multiplier (identity transform kernel). -/
noncomputable def oneK (k : ℕ) : ℂ := 1

/-- Squared spectral-derivative multiplier (i * 2 pi k / N)^2. -/
noncomputable def wI2 (N k : ℕ) : ℂ := wI N k ^ 2

/-- First-derivative kernel: the matrix of the linear map x to
ifft(i omega fft(x)). -/
noncomputable def Aker (N j m : ℕ) : ℂ := Kker (wI N) N j m

/-- Second-derivative kernel: the matrix of the linear map x to
ifft((i omega)^2 fft(x)). -/
noncomputable def A2ker (N j m : ℕ) : ℂ := Kker (wI2 N) N j m

/-- Entry (i, j) of a 2D real list (row i, column j), with default 0. -/
def ent (m : List (List ℝ)) (i j : ℕ) : ℝ := (m.getD i []).getD j 0

/-- Entry (i, j) of a 2D complex list (row i, column j), with default 0. -/
def entC (m : List (List ℂ)) (i j : ℕ) : ℂ := (m.getD i []).getD j 0

/-! ### List access utilities -/

lemma getD_range_map {α : Type} (f : ℕ → α) {N k : ℕ} (h : k < N) (d : α) :
    ((List.range N).map f).getD k d = f k := by
  rw [List.getD_eq_getElem?_getD, List.getElem?_map, List.getElem?_range h]
  rfl

lemma getD_map_of_lt {α β : Type} (f : α → β) (l : List α) {i : ℕ} (h : i < l.length)
    (d : β) (d2 : α) : (l.map f).getD i d = f (l.getD i d2) := by
  rw [List.getD_eq_getElem?_getD, List.getElem?_map, List.getD_eq_getElem?_getD,
    List.getElem?_eq_getElem h]
  rfl

lemma getD_eq_getElem_of_lt {α : Type} (l : List α) (d : α) {i : ℕ} (h : i < l.length) :
    l.getD i d = l[i] := by
  rw [List.getD_eq_getElem?_getD, List.getElem?_eq_getElem h]
  rfl

lemma Rect.row_length {m : List (List ℝ)} {M : ℕ} (h : Rect m M) {i : ℕ}
    (hi : i < m.length) : (m.getD i []).length = M := by
  rw [getD_eq_getElem_of_lt m [] hi]
  exact h _ (List.getElem_mem hi)

lemma Rect.headD_length {m : List (List ℝ)} {M : ℕ} (h : Rect m M) (hm : m ≠ []) :
    (m.headD []).length = M := by
  cases m with
  | nil => exact absurd rfl hm
  | cons r rs => exact h r (by simp)

lemma ext2 {a b : List (List ℝ)} (hlen : a.length = b.length)
    (hrow : ∀ i, i < a.length → (a.getD i []).length = (b.getD i []).length)
    (hent : ∀ i, i < a.length → ∀ j, j < (a.getD i []).length → ent a i j = ent b i j) :
    a = b := by
  refine List.ext_getElem hlen (fun i h1 h2 => ?_)
  have hr := hrow i h1
  rw [getD_eq_getElem_of_lt a [] h1, getD_eq_getElem_of_lt b [] h2] at hr
  refine List.ext_getElem hr (fun j hj1 hj2 => ?_)
  have he := hent i h1 j (by rwa [getD_eq_getElem_of_lt a [] h1])
  rw [ent, ent, getD_eq_getElem_of_lt a [] h1, getD_eq_getElem_of_lt b [] h2,
    getD_eq_getElem_of_lt _ _ hj1, getD_eq_getElem_of_lt _ _ hj2] at he
  exact he

/-! ### Roots of unity -/

lemma eN_zero (N : ℕ) : eN N 0 = 1 := by simp [eN]

lemma eN_add (N : ℕ) (s t : ℤ) : eN N (s + t) = eN N s * eN N t := by
  rw [eN, eN, eN, ← Complex.exp_add]
  congr 1
  push_cast
  ring

lemma eN_mul_natSelf (N : ℕ) (hN : N ≠ 0) (c : ℤ) : eN N (c * N) = 1 := by
  have hNc : (N : ℂ) ≠ 0 := Nat.cast_ne_zero.mpr hN
  rw [eN]
  have h1 : (2 * (Real.pi : ℂ) * Complex.I * ((c * (N : ℤ) : ℤ) : ℂ) / (N : ℂ))
      = (c : ℂ) * (2 * (Real.pi : ℂ) * Complex.I) := by
    push_cast
    field_simp
    ring
  rw [h1]
  exact Complex.exp_int_mul_two_pi_mul_I c

lemma eN_pow (N : ℕ) (t : ℤ) (k : ℕ) : eN N (t * k) = eN N t ^ k := by
  rw [eN, eN, ← Complex.exp_nat_mul]
  congr 1
  push_cast
  ring

lemma eN_geom (N : ℕ) (hN : N ≠ 0) (t : ℤ) :
    ∑ k ∈ Finset.range N, eN N (t * k) = if (N : ℤ) ∣ t then (N : ℂ) else 0 := by
  simp_rw [eN_pow]
  by_cases h : (N : ℤ) ∣ t
  · obtain ⟨c, hc⟩ := h
    have h1 : eN N t = 1 := by
      rw [hc, mul_comm]
      exact eN_mul_natSelf N hN c
    rw [if_pos ⟨c, hc⟩]
    simp [h1]
  · have hπ : (Real.pi : ℂ) ≠ 0 := by exact_mod_cast Real.pi_ne_zero
    have hNc : (N : ℂ) ≠ 0 := Nat.cast_ne_zero.mpr hN
    have h2πI : (2 : ℂ) * Real.pi * Complex.I ≠ 0 := by
      simp [hπ, Complex.I_ne_zero]
    have h1 : eN N t ≠ 1 := by
      intro he
      rw [eN] at he
      rcases Complex.exp_eq_one_iff.mp he with ⟨n, hn⟩
      apply h
      have h3 := (div_eq_iff hNc).mp hn
      have hmain : (2 * (Real.pi : ℂ) * Complex.I) * (t : ℂ)
          = (2 * (Real.pi : ℂ) * Complex.I) * ((n : ℂ) * N) := by
        linear_combination h3
      have ht : (t : ℂ) = (n : ℂ) * (N : ℂ) := mul_left_cancel₀ h2πI hmain
      have ht2 : t = n * N := by exact_mod_cast ht
      exact ⟨n, by rw [ht2]; ring⟩
    rw [geom_sum_eq h1]
    have h2 : eN N t ^ N = 1 := by
      rw [← eN_pow]
      exact eN_mul_natSelf N hN t
    rw [h2]
    simp [h]

lemma eN_orth (N : ℕ) (hN : N ≠ 0) {a b : ℕ} (ha : a < N) (hb : b < N) :
    ∑ k ∈ Finset.range N, eN N (((a : ℤ) - (b : ℤ)) * k)
      = if a = b then (N : ℂ) else 0 := by
  rw [eN_geom N hN]
  by_cases hab : a = b
  · subst hab
    simp
  · have hnd : ¬ (N : ℤ) ∣ ((a : ℤ) - (b : ℤ)) := by
      intro hdvd
      have habs : |(a : ℤ) - (b : ℤ)| < (N : ℤ) := by
        rw [abs_lt]
        constructor <;> omega
      have h0 := Int.eq_zero_of_abs_lt_dvd hdvd habs
      exact hab (by omega)
    rw [if_neg hnd, if_neg hab]

/-! ### Shapes and closed forms of the 1D operators -/

lemma sdF_length (x : List ℝ) : (sdF x).length = x.length := by simp [sdF]

lemma sdF_getD (x : List ℝ) {j : ℕ} (hj : j < x.length) : (sdF x).getD j 0 = sdVal x j :=
  getD_range_map _ hj _

lemma npFftfreq_getD (N : ℕ) {k : ℕ} (hk : k < N) :
    (npFftfreq N).getD k 0 = (signedIdx N k : ℝ) / N :=
  getD_range_map _ hk _

lemma sfft_eq (x : List ℂ) (hx : x.length ≠ 0) :
    sfft x = some ((List.range x.length).map (fun j =>
      ∑ k ∈ Finset.range x.length, x.getD k 0 * eN x.length (-((j * k : ℕ) : ℤ)))) := by
  rw [sfft, if_neg hx]

lemma sifft_eq (x : List ℂ) (hx : x.length ≠ 0) :
    sifft x = some ((List.range x.length).map (fun j =>
      (∑ k ∈ Finset.range x.length, x.getD k 0 * eN x.length ((j * k : ℕ) : ℤ)) /
        (x.length : ℂ))) := by
  rw [sifft, if_neg hx]

lemma sifft_re_eq (N : ℕ) (g : ℕ → ℂ) (hN : N ≠ 0) :
    (sifft ((List.range N).map g)).map (fun z => z.map Complex.re)
      = some ((List.range N).map (fun j =>
        ((∑ k ∈ Finset.range N, g k * eN N ((j * k : ℕ) : ℤ)) / (N : ℂ)).re)) := by
  rw [sifft_eq ((List.range N).map g) (by simpa using hN), Option.map_some']
  congr 1
  simp only [List.length_map, List.length_range, List.map_map]
  apply List.map_congr_left
  intro j hj
  simp only [Function.comp]
  congr 2
  apply Finset.sum_congr rfl
  intro k hk
  rw [Finset.mem_range] at hk
  rw [getD_range_map _ hk]

lemma spectralDeriv_eq (x : List ℝ) (hx : x ≠ []) :
    spectralDeriv x = some (sdF x) := by
  have hN : x.length ≠ 0 := fun h => hx (List.length_eq_zero.mp h)
  rw [spectralDeriv, sfft_eq (x.map Complex.ofReal) (by simpa using hN),
    Option.some_bind, sifft_re_eq x.length _ hN]
  congr 1
  rw [sdF]
  apply List.map_congr_left
  intro j hj
  rw [List.mem_range] at hj
  rw [sdVal]
  congr 2
  apply Finset.sum_congr rfl
  intro k hk
  rw [Finset.mem_range] at hk
  congr 1
  rw [getD_range_map _ (by simpa using hk)]
  simp only [List.length_map]
  have hdft : (∑ m ∈ Finset.range x.length,
      (x.map Complex.ofReal).getD m 0 * eN x.length (-((k * m : ℕ) : ℤ)))
      = dftVal x k := by
    rw [dftVal]
    apply Finset.sum_congr rfl
    intro m hm
    rw [Finset.mem_range] at hm
    rw [getD_map_of_lt _ _ (by simpa using hm) _ 0]
  rw [hdft, npFftfreq_getD _ hk, wI]
  congr 2
  push_cast
  ring

lemma sdRows_eq (m : List (List ℝ)) (h : ∀ r ∈ m, r ≠ []) :
    sdRows m = some (m.map sdF) := by
  induction m with
  | nil => rfl
  | cons r rs ih =>
    have h1 : spectralDeriv r = some (sdF r) := spectralDeriv_eq r (h r (by simp))
    have h2 : sdRows rs = some (rs.map sdF) := ih (fun s hs => h s (by simp [hs]))
    simp [sdRows, h1, h2]

lemma Rect.rows_ne_nil {m : List (List ℝ)} {M : ℕ} (h : Rect m M) (hM : M ≠ 0) :
    ∀ r ∈ m, r ≠ [] := by
  intro r hr hcon
  apply hM
  rw [← h r hr, hcon]
  rfl

lemma ddx_eq (m : List (List ℝ)) (hm : m.length ≠ 0) (h : ∀ r ∈ m, r ≠ []) :
    ddx m = some (m.map sdF) := by
  rw [ddx, if_neg hm, sdRows_eq m h]

lemma headD_eq_getD_zero {α : Type} (l : List α) (d : α) : l.headD d = l.getD 0 d := by
  cases l <;> rfl

lemma transposeL_length (m : List (List ℝ)) :
    (transposeL m).length = (m.headD []).length := by
  simp [transposeL]

lemma transposeL_getD {m : List (List ℝ)} {j : ℕ} (hj : j < (m.headD []).length) :
    (transposeL m).getD j [] = colD m j := getD_range_map _ hj _

lemma colD_length (m : List (List ℝ)) (j : ℕ) : (colD m j).length = m.length := by
  simp [colD]

lemma colD_getD {m : List (List ℝ)} {i : ℕ} (hi : i < m.length) (j : ℕ) :
    (colD m j).getD i 0 = ent m i j :=
  getD_map_of_lt _ _ hi _ []

lemma ddy_eq (m : List (List ℝ)) {M : ℕ} (hrect : Rect m M) (hm : m ≠ []) (hM : M ≠ 0) :
    ddy m = some (transposeL ((transposeL m).map sdF)) := by
  have hhead : (m.headD []).length = M := hrect.headD_length hm
  have hTne : (transposeL m).length ≠ 0 := by rw [transposeL_length, hhead]; exact hM
  have hTrows : ∀ r ∈ transposeL m, r ≠ [] := by
    intro r hr hcon
    rcases List.mem_map.mp (by rwa [transposeL] at hr) with ⟨j, _, rfl⟩
    have h0 : m.length = 0 := by simpa using congrArg List.length hcon
    exact hm (List.length_eq_zero.mp h0)
  rw [ddy, if_neg hTne, sdRows_eq _ hTrows, Option.map_some']

/-! ### Kernel form of the spectral derivative -/

lemma re_div_natCast (z : ℂ) (n : ℕ) : (z / (n : ℂ)).re = z.re / n := by
  have h1 : ((n : ℂ)).re = (n : ℝ) := by simp
  have h2 : ((n : ℂ)).im = 0 := by simp
  rw [Complex.div_re, h1, h2, Complex.normSq_apply, h1, h2]
  by_cases hn : (n : ℝ) = 0
  · simp [hn]
  · field_simp
    ring

lemma sdVal_kernel (x : List ℝ) (j : ℕ) :
    sdVal x j = ∑ m ∈ Finset.range x.length, (Aker x.length j m).re * x.getD m 0 := by
  rw [sdVal]
  have h1 : (∑ k ∈ Finset.range x.length,
      wI x.length k * dftVal x k * eN x.length ((j * k : ℕ) : ℤ))
      = ∑ m ∈ Finset.range x.length, (Complex.ofReal (x.getD m 0)) *
          ∑ k ∈ Finset.range x.length,
            wI x.length k * eN x.length ((j * k : ℕ) : ℤ) *
              eN x.length (-((k * m : ℕ) : ℤ)) := by
    simp_rw [dftVal, Finset.mul_sum, Finset.sum_mul]
    rw [Finset.sum_comm]
    apply Finset.sum_congr rfl
    intro m _
    apply Finset.sum_congr rfl
    intro k _
    push_cast
    ring
  rw [h1, Finset.sum_div, Complex.re_sum]
  apply Finset.sum_congr rfl
  intro m _
  rw [Aker, Kker]
  have h2 : (Complex.ofReal (x.getD m 0)) * (∑ k ∈ Finset.range x.length,
      wI x.length k * eN x.length ((j * k : ℕ) : ℤ) * eN x.length (-((k * m : ℕ) : ℤ))) /
        (x.length : ℂ)
      = (Complex.ofReal (x.getD m 0)) * ((∑ k ∈ Finset.range x.length,
          wI x.length k * eN x.length ((j * k : ℕ) : ℤ) *
            eN x.length (-((k * m : ℕ) : ℤ))) / (x.length : ℂ)) := by
    ring
  rw [h2, Complex.re_ofReal_mul]
  ring

lemma mapsdF_rect {m : List (List ℝ)} {M : ℕ} (hrect : Rect m M) :
    Rect (m.map sdF) M := by
  intro r hr
  rcases List.mem_map.mp hr with ⟨s, hs, rfl⟩
  rw [sdF_length]
  exact hrect s hs

lemma transposeL_rect (m : List (List ℝ)) : Rect (transposeL m) m.length := by
  intro r hr
  rcases List.mem_map.mp (by rwa [transposeL] at hr) with ⟨j, _, rfl⟩
  simp

lemma ent_map_sdF {m : List (List ℝ)} {M : ℕ} (hrect : Rect m M) {i j : ℕ}
    (hi : i < m.length) (hj : j < M) :
    ent (m.map sdF) i j = ∑ c ∈ Finset.range M, (Aker M j c).re * ent m i c := by
  rw [ent, getD_map_of_lt sdF m hi [] []]
  rw [sdF_getD _ (by rw [hrect.row_length hi]; exact hj)]
  rw [sdVal_kernel, hrect.row_length hi]
  rfl

lemma ddyF_headD_length {m : List (List ℝ)} {M : ℕ} (hrect : Rect m M) (hm : m ≠ [])
    (hM : M ≠ 0) : (((transposeL m).map sdF).headD []).length = m.length := by
  have hhead : (m.headD []).length = M := hrect.headD_length hm
  have hTlen : (transposeL m).length = M := by rw [transposeL_length, hhead]
  rw [headD_eq_getD_zero,
    getD_map_of_lt sdF (transposeL m) (by rw [hTlen]; omega) [] [], sdF_length,
    transposeL_getD (by rw [hhead]; omega), colD_length]

lemma ent_ddyF {m : List (List ℝ)} {M : ℕ} (hrect : Rect m M) (hm : m ≠ []) (hM : M ≠ 0)
    {i j : ℕ} (hi : i < m.length) (hj : j < M) :
    ent (transposeL ((transposeL m).map sdF)) i j
      = ∑ r ∈ Finset.range m.length, (Aker m.length i r).re * ent m r j := by
  have hhead : (m.headD []).length = M := hrect.headD_length hm
  have hTlen : (transposeL m).length = M := by rw [transposeL_length, hhead]
  have hWlen : ((transposeL m).map sdF).length = M := by rw [List.length_map, hTlen]
  rw [ent, transposeL_getD (by rw [ddyF_headD_length hrect hm hM]; exact hi)]
  rw [show (colD ((transposeL m).map sdF) i).getD j 0
      = ent ((transposeL m).map sdF) j i from colD_getD (by rw [hWlen]; exact hj) i]
  rw [ent, getD_map_of_lt sdF (transposeL m) (by rw [hTlen]; exact hj) [] []]
  rw [transposeL_getD (by rw [hhead]; exact hj)]
  rw [sdF_getD _ (by rw [colD_length]; exact hi)]
  rw [sdVal_kernel, colD_length]
  apply Finset.sum_congr rfl
  intro r hr
  rw [Finset.mem_range] at hr
  rw [colD_getD hr j]

/-! ### More shape lemmas -/

lemma ddyF_length {m : List (List ℝ)} {M : ℕ} (hrect : Rect m M) (hm : m ≠ [])
    (hM : M ≠ 0) : (transposeL ((transposeL m).map sdF)).length = m.length := by
  rw [transposeL_length, ddyF_headD_length hrect hm hM]

lemma ddyF_rect {m : List (List ℝ)} {M : ℕ} (hrect : Rect m M) (hm : m ≠ [])
    (hM : M ≠ 0) : Rect (transposeL ((transposeL m).map sdF)) M := by
  have h1 := transposeL_rect ((transposeL m).map sdF)
  have h2 : ((transposeL m).map sdF).length = M := by
    rw [List.length_map, transposeL_length, hrect.headD_length hm]
  rwa [h2] at h1

lemma neg2_length (m : List (List ℝ)) : (neg2 m).length = m.length := by simp [neg2]

lemma neg2_rect {m : List (List ℝ)} {M : ℕ} (hrect : Rect m M) : Rect (neg2 m) M := by
  intro r hr
  rcases List.mem_map.mp hr with ⟨s, hs, rfl⟩
  rw [List.length_map]
  exact hrect s hs

lemma neg2_ne_nil {m : List (List ℝ)} (hm : m ≠ []) : neg2 m ≠ [] := by
  intro hcon
  apply hm
  have := congrArg List.length hcon
  rw [neg2_length] at this
  exact List.length_eq_zero.mp this

lemma ent_neg2 {m : List (List ℝ)} {M : ℕ} (hrect : Rect m M) {i j : ℕ}
    (hi : i < m.length) (hj : j < M) : ent (neg2 m) i j = - ent m i j := by
  rw [ent, neg2, getD_map_of_lt _ m hi [] [],
    getD_map_of_lt _ (m.getD i []) (by rw [hrect.row_length hi]; exact hj) 0 0]
  rfl

/-! ### Reflection symmetry of the derivative kernel -/

lemma sum_Ico_reflect (N : ℕ) (f : ℕ → ℂ) :
    ∑ k ∈ Finset.Ico 1 N, f k = ∑ k ∈ Finset.Ico 1 N, f (N - k) := by
  refine Finset.sum_nbij' (fun k => N - k) (fun k => N - k) ?_ ?_ ?_ ?_ ?_
  · intro a ha
    dsimp only
    rw [Finset.mem_Ico] at *
    omega
  · intro a ha
    dsimp only
    rw [Finset.mem_Ico] at *
    omega
  · intro a ha
    dsimp only
    rw [Finset.mem_Ico] at ha
    omega
  · intro a ha
    dsimp only
    rw [Finset.mem_Ico] at ha
    omega
  · intro a ha
    dsimp only
    rw [Finset.mem_Ico] at ha
    congr 1
    omega

lemma signedIdx_zero {N : ℕ} (hN : N ≠ 0) : signedIdx N 0 = 0 := by
  rw [signedIdx, if_pos (by omega)]
  rfl

lemma signedIdx_reflect {N k : ℕ} (hodd : Odd N) (hk1 : 1 ≤ k) (hk2 : k < N) :
    signedIdx N (N - k) = - signedIdx N k := by
  rcases hodd with ⟨t, ht⟩
  rw [signedIdx, signedIdx]
  split_ifs <;> omega

lemma conj_eN (N : ℕ) (t : ℤ) : (starRingEnd ℂ) (eN N t) = eN N (-t) := by
  rw [eN, eN, ← Complex.exp_conj]
  congr 1
  simp only [map_div₀, map_mul, Complex.conj_I, Complex.conj_ofReal, map_intCast,
    map_natCast, map_ofNat]
  push_cast
  ring

lemma eN_sub_mul (N : ℕ) (hN : N ≠ 0) (j k : ℕ) (hk : k ≤ N) :
    eN N (-((j * (N - k) : ℕ) : ℤ)) = eN N ((j * k : ℕ) : ℤ) := by
  have h1 : (-((j * (N - k) : ℕ) : ℤ)) = ((j * k : ℕ) : ℤ) + (-(j : ℤ)) * N := by
    push_cast [Nat.cast_sub hk]
    ring
  rw [h1, eN_add, eN_mul_natSelf N hN, mul_one]

lemma eN_sub_mul2 (N : ℕ) (hN : N ≠ 0) (k m : ℕ) (hk : k ≤ N) :
    eN N (((N - k) * m : ℕ) : ℤ) = eN N (-((k * m : ℕ) : ℤ)) := by
  have h1 : (((N - k) * m : ℕ) : ℤ) = -((k * m : ℕ) : ℤ) + (m : ℤ) * N := by
    push_cast [Nat.cast_sub hk]
    ring
  rw [h1, eN_add, eN_mul_natSelf N hN, mul_one]

lemma Aker_conj {N : ℕ} (hodd : Odd N) (j m : ℕ) :
    (starRingEnd ℂ) (Aker N j m) = Aker N j m := by
  have hN : N ≠ 0 := by
    rcases hodd with ⟨t, ht⟩
    omega
  rw [Aker, Kker, map_div₀, map_natCast, map_sum]
  congr 1
  have hconj : ∀ k : ℕ, (starRingEnd ℂ)
      (wI N k * eN N ((j * k : ℕ) : ℤ) * eN N (-((k * m : ℕ) : ℤ)))
      = (- Complex.I) * ((2 * Real.pi * ((signedIdx N k : ℝ) / N) : ℝ) : ℂ) *
          eN N (-((j * k : ℕ) : ℤ)) * eN N ((k * m : ℕ) : ℤ) := by
    intro k
    rw [map_mul, map_mul, conj_eN, conj_eN, wI, map_mul, Complex.conj_I,
      Complex.conj_ofReal, neg_neg]
  simp_rw [hconj]
  have hzero : (- Complex.I) *
      ((2 * Real.pi * ((signedIdx N 0 : ℝ) / N) : ℝ) : ℂ) *
        eN N (-((j * 0 : ℕ) : ℤ)) * eN N ((0 * m : ℕ) : ℤ)
      = wI N 0 * eN N ((j * 0 : ℕ) : ℤ) * eN N (-((0 * m : ℕ) : ℤ)) := by
    rw [wI, signedIdx_zero hN]
    norm_num
  rw [Finset.range_eq_Ico,
    Finset.sum_eq_sum_Ico_succ_bot (by omega) _,
    Finset.sum_eq_sum_Ico_succ_bot (by omega)
      (fun k => wI N k * eN N ((j * k : ℕ) : ℤ) * eN N (-((k * m : ℕ) : ℤ)))]
  rw [hzero]
  congr 1
  rw [sum_Ico_reflect]
  apply Finset.sum_congr rfl
  intro k hk
  rw [Finset.mem_Ico] at hk
  rw [signedIdx_reflect hodd hk.1 hk.2]
  rw [eN_sub_mul N hN j k (le_of_lt hk.2), eN_sub_mul2 N hN k m (le_of_lt hk.2), wI]
  push_cast
  ring

lemma Aker_im_zero {N : ℕ} (hodd : Odd N) (j m : ℕ) : (Aker N j m).im = 0 :=
  Complex.conj_eq_iff_im.mp (Aker_conj hodd j m)

/-! ### Kernel composition -/

lemma Kker_mul_sum (N : ℕ) (hN : N ≠ 0) (g1 g2 : ℕ → ℂ) (x y : ℕ) :
    ∑ k ∈ Finset.range N, Kker g1 N x k * Kker g2 N k y
      = Kker (fun k => g1 k * g2 k) N x y := by
  have hNc : (N : ℂ) ≠ 0 := Nat.cast_ne_zero.mpr hN
  have h1 : ∀ k : ℕ, Kker g1 N x k * Kker g2 N k y
      = (∑ k1 ∈ Finset.range N, ∑ k2 ∈ Finset.range N,
          g1 k1 * g2 k2 * eN N ((x * k1 : ℕ) : ℤ) * eN N (-((k2 * y : ℕ) : ℤ)) *
            (eN N (-((k1 * k : ℕ) : ℤ)) * eN N ((k * k2 : ℕ) : ℤ))) / ((N : ℂ) * N) := by
    intro k
    rw [Kker, Kker, div_mul_div_comm, Finset.sum_mul_sum]
    congr 1
    apply Finset.sum_congr rfl
    intro k1 _
    apply Finset.sum_congr rfl
    intro k2 _
    ring
  simp_rw [h1]
  rw [← Finset.sum_div]
  have h2 : ∑ k ∈ Finset.range N, ∑ k1 ∈ Finset.range N, ∑ k2 ∈ Finset.range N,
      g1 k1 * g2 k2 * eN N ((x * k1 : ℕ) : ℤ) * eN N (-((k2 * y : ℕ) : ℤ)) *
        (eN N (-((k1 * k : ℕ) : ℤ)) * eN N ((k * k2 : ℕ) : ℤ))
      = ∑ k1 ∈ Finset.range N, ∑ k2 ∈ Finset.range N,
          g1 k1 * g2 k2 * eN N ((x * k1 : ℕ) : ℤ) * eN N (-((k2 * y : ℕ) : ℤ)) *
            (∑ k ∈ Finset.range N, eN N (((k2 : ℤ) - (k1 : ℤ)) * k)) := by
    rw [Finset.sum_comm]
    apply Finset.sum_congr rfl
    intro k1 _
    rw [Finset.sum_comm]
    apply Finset.sum_congr rfl
    intro k2 _
    rw [Finset.mul_sum]
    apply Finset.sum_congr rfl
    intro k _
    have he : eN N (-((k1 * k : ℕ) : ℤ)) * eN N ((k * k2 : ℕ) : ℤ)
        = eN N (((k2 : ℤ) - (k1 : ℤ)) * k) := by
      rw [← eN_add]
      congr 1
      push_cast
      ring
    rw [he]
  rw [h2]
  have h3 : ∀ k1 ∈ Finset.range N, (∑ k2 ∈ Finset.range N,
      g1 k1 * g2 k2 * eN N ((x * k1 : ℕ) : ℤ) * eN N (-((k2 * y : ℕ) : ℤ)) *
        (∑ k ∈ Finset.range N, eN N (((k2 : ℤ) - (k1 : ℤ)) * k)))
      = g1 k1 * g2 k1 * eN N ((x * k1 : ℕ) : ℤ) * eN N (-((k1 * y : ℕ) : ℤ)) * N := by
    intro k1 hk1
    have hk1r := Finset.mem_range.mp hk1
    have h4 : ∀ k2 ∈ Finset.range N,
        g1 k1 * g2 k2 * eN N ((x * k1 : ℕ) : ℤ) * eN N (-((k2 * y : ℕ) : ℤ)) *
          (∑ k ∈ Finset.range N, eN N (((k2 : ℤ) - (k1 : ℤ)) * k))
        = if k2 = k1 then g1 k1 * g2 k2 * eN N ((x * k1 : ℕ) : ℤ) *
            eN N (-((k2 * y : ℕ) : ℤ)) * N else 0 := by
      intro k2 hk2
      rw [eN_orth N hN (Finset.mem_range.mp hk2) hk1r]
      split_ifs with h
      · rfl
      · rw [mul_zero]
    rw [Finset.sum_congr rfl h4, Finset.sum_ite_eq' (Finset.range N) k1 _,
      if_pos hk1]
  rw [Finset.sum_congr rfl h3, Kker, ← Finset.sum_mul]
  field_simp
  ring

lemma Aker_sq (N : ℕ) (hN : N ≠ 0) (x y : ℕ) :
    ∑ k ∈ Finset.range N, Aker N x k * Aker N k y = A2ker N x y := by
  have h : Kker (wI2 N) N x y = Kker (fun k => wI N k * wI N k) N x y := by
    rw [Kker, Kker]
    congr 1
    apply Finset.sum_congr rfl
    intro k _
    rw [wI2, sq]
  rw [A2ker, h]
  exact Kker_mul_sum N hN (wI N) (wI N) x y

lemma Aker_re_comp {N : ℕ} (hodd : Odd N) (x y : ℕ) :
    ∑ k ∈ Finset.range N, (Aker N x k).re * (Aker N k y).re = (A2ker N x y).re := by
  have hN : N ≠ 0 := by
    rcases hodd with ⟨t, ht⟩
    omega
  rw [← Aker_sq N hN x y, Complex.re_sum]
  apply Finset.sum_congr rfl
  intro k _
  rw [Complex.mul_re, Aker_im_zero hodd, Aker_im_zero hodd]
  ring

lemma sum4_comm {β : Type} [AddCommMonoid β] (s1 s2 s3 s4 : Finset ℕ)
    (f : ℕ → ℕ → ℕ → ℕ → β) :
    ∑ r ∈ s1, ∑ c ∈ s2, ∑ a ∈ s3, ∑ b ∈ s4, f r c a b
      = ∑ a ∈ s3, ∑ b ∈ s4, ∑ r ∈ s1, ∑ c ∈ s2, f r c a b := by
  have h1 : ∑ r ∈ s1, ∑ c ∈ s2, ∑ a ∈ s3, ∑ b ∈ s4, f r c a b
      = ∑ r ∈ s1, ∑ a ∈ s3, ∑ c ∈ s2, ∑ b ∈ s4, f r c a b :=
    Finset.sum_congr rfl (fun r _ => Finset.sum_comm)
  have h2 : ∑ r ∈ s1, ∑ a ∈ s3, ∑ c ∈ s2, ∑ b ∈ s4, f r c a b
      = ∑ a ∈ s3, ∑ r ∈ s1, ∑ c ∈ s2, ∑ b ∈ s4, f r c a b := Finset.sum_comm
  have h3 : ∑ a ∈ s3, ∑ r ∈ s1, ∑ c ∈ s2, ∑ b ∈ s4, f r c a b
      = ∑ a ∈ s3, ∑ r ∈ s1, ∑ b ∈ s4, ∑ c ∈ s2, f r c a b :=
    Finset.sum_congr rfl (fun a _ => Finset.sum_congr rfl (fun r _ => Finset.sum_comm))
  have h4 : ∑ a ∈ s3, ∑ r ∈ s1, ∑ b ∈ s4, ∑ c ∈ s2, f r c a b
      = ∑ a ∈ s3, ∑ b ∈ s4, ∑ r ∈ s1, ∑ c ∈ s2, f r c a b :=
    Finset.sum_congr rfl (fun a _ => Finset.sum_comm)
  rw [h1, h2, h3, h4]

/-! ### Entry formulas for the 2D transform path -/

lemma entC_fft2L {ψ : List (List ℝ)} {N : ℕ} (hψ : ψ.length = N) (hrect : Rect ψ N)
    (hN : N ≠ 0) {r c : ℕ} (hr : r < N) (hc : c < N) :
    entC (fft2L ψ) r c = ∑ a ∈ Finset.range N, ∑ b ∈ Finset.range N,
      ((ent ψ a b : ℝ) : ℂ) * eN N (-((r * a : ℕ) : ℤ)) * eN N (-((c * b : ℕ) : ℤ)) := by
  have hne : ψ ≠ [] := by
    intro h
    rw [h] at hψ
    exact hN hψ.symm
  have hhead : (ψ.headD []).length = N := hrect.headD_length hne
  rw [entC, fft2L, hψ, hhead, getD_range_map _ hr, getD_range_map _ hc]
  rfl

lemma ent_ifft2reL (N : ℕ) (hN : N ≠ 0) (G : ℕ → ℕ → ℂ) {a b : ℕ}
    (ha : a < N) (hb : b < N) :
    ent (ifft2reL ((List.range N).map (fun r => (List.range N).map (fun c => G r c))))
        a b
      = ((∑ r ∈ Finset.range N, ∑ c ∈ Finset.range N,
          G r c * eN N ((a * r : ℕ) : ℤ) * eN N ((b * c : ℕ) : ℤ)) /
            ((N : ℂ) * N)).re := by
  have hlen : ((List.range N).map
      (fun r => (List.range N).map (fun c => G r c))).length = N := by simp
  have hhead : (((List.range N).map
      (fun r => (List.range N).map (fun c => G r c))).headD []).length = N := by
    rw [headD_eq_getD_zero,
      getD_range_map (fun r => (List.range N).map (fun c => G r c)) (by omega) []]
    simp
  rw [ifft2reL, hlen, hhead, ent, getD_range_map _ ha, getD_range_map _ hb]
  congr 2
  apply Finset.sum_congr rfl
  intro r hr
  apply Finset.sum_congr rfl
  intro c hc
  rw [getD_range_map _ (Finset.mem_range.mp hr),
    getD_range_map _ (Finset.mem_range.mp hc)]

lemma sum_factor (N : ℕ) (hN : N ≠ 0) (ψ : List (List ℝ)) (hψ : ψ.length = N)
    (hrect : Rect ψ N) (g1 g2 : ℕ → ℂ) {a b : ℕ} (ha : a < N) (hb : b < N) :
    (∑ r ∈ Finset.range N, ∑ c ∈ Finset.range N,
        g1 r * g2 c * entC (fft2L ψ) r c * eN N ((a * r : ℕ) : ℤ) *
          eN N ((b * c : ℕ) : ℤ)) / ((N : ℂ) * N)
      = ∑ a2 ∈ Finset.range N, ∑ b2 ∈ Finset.range N,
          ((ent ψ a2 b2 : ℝ) : ℂ) * (Kker g1 N a a2 * Kker g2 N b b2) := by
  have hent : ∀ r ∈ Finset.range N, ∀ c ∈ Finset.range N,
      g1 r * g2 c * entC (fft2L ψ) r c * eN N ((a * r : ℕ) : ℤ) *
          eN N ((b * c : ℕ) : ℤ)
      = ∑ a2 ∈ Finset.range N, ∑ b2 ∈ Finset.range N,
          ((ent ψ a2 b2 : ℝ) : ℂ) *
            (g1 r * eN N ((a * r : ℕ) : ℤ) * eN N (-((r * a2 : ℕ) : ℤ))) *
            (g2 c * eN N ((b * c : ℕ) : ℤ) * eN N (-((c * b2 : ℕ) : ℤ))) := by
    intro r hr c hc
    rw [entC_fft2L hψ hrect hN (Finset.mem_range.mp hr) (Finset.mem_range.mp hc)]
    simp_rw [Finset.mul_sum, Finset.sum_mul]
    apply Finset.sum_congr rfl
    intro a2 _
    apply Finset.sum_congr rfl
    intro b2 _
    ring
  rw [Finset.sum_congr rfl (fun r hr =>
    Finset.sum_congr rfl (fun c hc => hent r hr c hc))]
  rw [sum4_comm, Finset.sum_div]
  apply Finset.sum_congr rfl
  intro a2 _
  rw [Finset.sum_div]
  apply Finset.sum_congr rfl
  intro b2 _
  rw [Kker, Kker, div_mul_div_comm, Finset.sum_mul_sum, ← mul_div_assoc]
  congr 1
  rw [Finset.mul_sum]
  apply Finset.sum_congr rfl
  intro r _
  rw [Finset.mul_sum]
  apply Finset.sum_congr rfl
  intro c _
  ring

lemma Kker_one (N : ℕ) (hN : N ≠ 0) {a a2 : ℕ} (ha : a < N) (ha2 : a2 < N) :
    Kker oneK N a a2 = if a = a2 then 1 else 0 := by
  rw [Kker]
  have h : ∀ k ∈ Finset.range N,
      oneK k * eN N ((a * k : ℕ) : ℤ) * eN N (-((k * a2 : ℕ) : ℤ))
      = eN N (((a : ℤ) - (a2 : ℤ)) * k) := by
    intro k _
    rw [oneK, one_mul, ← eN_add]
    congr 1
    push_cast
    ring
  rw [Finset.sum_congr rfl h, eN_orth N hN ha ha2]
  split_ifs
  · exact div_self (Nat.cast_ne_zero.mpr hN)
  · exact zero_div _

/-! ### Entries of the three internal second partials -/

lemma psiXX_ent (ψ : List (List ℝ)) (N : ℕ) (hψ : ψ.length = N) (hrect : Rect ψ N)
    (hN : N ≠ 0) {a b : ℕ} (ha : a < N) (hb : b < N) :
    ent (psiXX ψ) a b = (∑ a2 ∈ Finset.range N, ∑ b2 ∈ Finset.range N,
      ((ent ψ a2 b2 : ℝ) : ℂ) * (Kker oneK N a a2 * Kker (wI2 N) N b b2)).re := by
  rw [psiXX, hψ, ent_ifft2reL N hN _ ha hb]
  congr 1
  have hterm : ∀ r ∈ Finset.range N, ∀ c ∈ Finset.range N,
      (2 * Real.pi * Complex.I * (((npFftfreq N).getD c 0 : ℝ) : ℂ)) ^ 2 *
          ((fft2L ψ).getD r []).getD c 0 * eN N ((a * r : ℕ) : ℤ) *
          eN N ((b * c : ℕ) : ℤ)
      = oneK r * wI2 N c * entC (fft2L ψ) r c * eN N ((a * r : ℕ) : ℤ) *
          eN N ((b * c : ℕ) : ℤ) := by
    intro r _ c hc
    rw [npFftfreq_getD _ (Finset.mem_range.mp hc), oneK, wI2, wI, entC]
    push_cast
    ring
  rw [Finset.sum_congr rfl (fun r hr =>
    Finset.sum_congr rfl (fun c hc => hterm r hr c hc))]
  exact sum_factor N hN ψ hψ hrect oneK (wI2 N) ha hb

lemma psiYY_ent (ψ : List (List ℝ)) (N : ℕ) (hψ : ψ.length = N) (hrect : Rect ψ N)
    (hN : N ≠ 0) {a b : ℕ} (ha : a < N) (hb : b < N) :
    ent (psiYY ψ) a b = (∑ a2 ∈ Finset.range N, ∑ b2 ∈ Finset.range N,
      ((ent ψ a2 b2 : ℝ) : ℂ) * (Kker (wI2 N) N a a2 * Kker oneK N b b2)).re := by
  rw [psiYY, hψ, ent_ifft2reL N hN _ ha hb]
  congr 1
  have hterm : ∀ r ∈ Finset.range N, ∀ c ∈ Finset.range N,
      (2 * Real.pi * Complex.I * (((npFftfreq N).getD r 0 : ℝ) : ℂ)) ^ 2 *
          ((fft2L ψ).getD r []).getD c 0 * eN N ((a * r : ℕ) : ℤ) *
          eN N ((b * c : ℕ) : ℤ)
      = wI2 N r * oneK c * entC (fft2L ψ) r c * eN N ((a * r : ℕ) : ℤ) *
          eN N ((b * c : ℕ) : ℤ) := by
    intro r hr c _
    rw [npFftfreq_getD _ (Finset.mem_range.mp hr), oneK, wI2, wI, entC]
    push_cast
    ring
  rw [Finset.sum_congr rfl (fun r hr =>
    Finset.sum_congr rfl (fun c hc => hterm r hr c hc))]
  exact sum_factor N hN ψ hψ hrect (wI2 N) oneK ha hb

lemma psiXY_ent (ψ : List (List ℝ)) (N : ℕ) (hψ : ψ.length = N) (hrect : Rect ψ N)
    (hN : N ≠ 0) {a b : ℕ} (ha : a < N) (hb : b < N) :
    ent (psiXY ψ) a b = (∑ a2 ∈ Finset.range N, ∑ b2 ∈ Finset.range N,
      ((ent ψ a2 b2 : ℝ) : ℂ) * (Kker (wI N) N a a2 * Kker (wI N) N b b2)).re := by
  rw [psiXY, hψ, ent_ifft2reL N hN _ ha hb]
  congr 1
  have hterm : ∀ r ∈ Finset.range N, ∀ c ∈ Finset.range N,
      (2 * Real.pi * Complex.I * (((npFftfreq N).getD c 0 : ℝ) : ℂ)) *
          (2 * Real.pi * Complex.I * (((npFftfreq N).getD r 0 : ℝ) : ℂ)) *
          ((fft2L ψ).getD r []).getD c 0 * eN N ((a * r : ℕ) : ℤ) *
          eN N ((b * c : ℕ) : ℤ)
      = wI N r * wI N c * entC (fft2L ψ) r c * eN N ((a * r : ℕ) : ℤ) *
          eN N ((b * c : ℕ) : ℤ) := by
    intro r hr c hc
    rw [npFftfreq_getD _ (Finset.mem_range.mp hr),
      npFftfreq_getD _ (Finset.mem_range.mp hc), entC]
    simp only [wI]
    push_cast
    ring
  rw [Finset.sum_congr rfl (fun r hr =>
    Finset.sum_congr rfl (fun c hc => hterm r hr c hc))]
  exact sum_factor N hN ψ hψ hrect (wI N) (wI N) ha hb

/-! ### Delta collapses -/

lemma collapse_row (N : ℕ) (hN : N ≠ 0) (ψ : List (List ℝ)) (g2 : ℕ → ℂ) {a b : ℕ}
    (ha : a < N) :
    (∑ a2 ∈ Finset.range N, ∑ b2 ∈ Finset.range N,
        ((ent ψ a2 b2 : ℝ) : ℂ) * (Kker oneK N a a2 * Kker g2 N b b2)).re
      = ∑ b2 ∈ Finset.range N, (Kker g2 N b b2).re * ent ψ a b2 := by
  have h1 : ∀ a2 ∈ Finset.range N, ∀ b2 ∈ Finset.range N,
      ((ent ψ a2 b2 : ℝ) : ℂ) * (Kker oneK N a a2 * Kker g2 N b b2)
      = if a2 = a then ((ent ψ a2 b2 : ℝ) : ℂ) * Kker g2 N b b2 else 0 := by
    intro a2 ha2 b2 _
    rw [Kker_one N hN ha (Finset.mem_range.mp ha2)]
    by_cases h : a = a2
    · rw [if_pos h, if_pos h.symm, one_mul]
    · rw [if_neg h, if_neg (fun hc => h hc.symm), zero_mul, mul_zero]
  rw [Finset.sum_congr rfl (fun a2 ha2 =>
    Finset.sum_congr rfl (fun b2 hb2 => h1 a2 ha2 b2 hb2))]
  have h2 : ∀ a2 ∈ Finset.range N, (∑ b2 ∈ Finset.range N,
      if a2 = a then ((ent ψ a2 b2 : ℝ) : ℂ) * Kker g2 N b b2 else 0)
      = if a2 = a then
          (∑ b2 ∈ Finset.range N, ((ent ψ a2 b2 : ℝ) : ℂ) * Kker g2 N b b2) else 0 := by
    intro a2 _
    split_ifs
    · rfl
    · exact Finset.sum_const_zero
  rw [Finset.sum_congr rfl h2, Finset.sum_ite_eq' (Finset.range N) a _,
    if_pos (Finset.mem_range.mpr ha), Complex.re_sum]
  apply Finset.sum_congr rfl
  intro b2 _
  rw [Complex.re_ofReal_mul]
  ring

lemma collapse_col (N : ℕ) (hN : N ≠ 0) (ψ : List (List ℝ)) (g1 : ℕ → ℂ) {a b : ℕ}
    (hb : b < N) :
    (∑ a2 ∈ Finset.range N, ∑ b2 ∈ Finset.range N,
        ((ent ψ a2 b2 : ℝ) : ℂ) * (Kker g1 N a a2 * Kker oneK N b b2)).re
      = ∑ a2 ∈ Finset.range N, (Kker g1 N a a2).re * ent ψ a2 b := by
  have h1 : ∀ a2 ∈ Finset.range N, (∑ b2 ∈ Finset.range N,
      ((ent ψ a2 b2 : ℝ) : ℂ) * (Kker g1 N a a2 * Kker oneK N b b2))
      = ((ent ψ a2 b : ℝ) : ℂ) * Kker g1 N a a2 := by
    intro a2 _
    have h1b : ∀ b2 ∈ Finset.range N,
        ((ent ψ a2 b2 : ℝ) : ℂ) * (Kker g1 N a a2 * Kker oneK N b b2)
        = if b2 = b then ((ent ψ a2 b2 : ℝ) : ℂ) * Kker g1 N a a2 else 0 := by
      intro b2 hb2
      rw [Kker_one N hN hb (Finset.mem_range.mp hb2)]
      by_cases h : b = b2
      · rw [if_pos h, if_pos h.symm, mul_one]
      · rw [if_neg h, if_neg (fun hc => h hc.symm), mul_zero, mul_zero]
    rw [Finset.sum_congr rfl h1b, Finset.sum_ite_eq' (Finset.range N) b _,
      if_pos (Finset.mem_range.mpr hb)]
  rw [Finset.sum_congr rfl h1, Complex.re_sum]
  apply Finset.sum_congr rfl
  intro a2 _
  rw [Complex.re_ofReal_mul]
  ring

lemma psiXX_ent2 (ψ : List (List ℝ)) (N : ℕ) (hψ : ψ.length = N) (hrect : Rect ψ N)
    (hN : N ≠ 0) {a b : ℕ} (ha : a < N) (hb : b < N) :
    ent (psiXX ψ) a b = ∑ b2 ∈ Finset.range N, (A2ker N b b2).re * ent ψ a b2 := by
  rw [psiXX_ent ψ N hψ hrect hN ha hb, collapse_row N hN ψ (wI2 N) ha]
  apply Finset.sum_congr rfl
  intro b2 _
  rw [A2ker]

lemma psiYY_ent2 (ψ : List (List ℝ)) (N : ℕ) (hψ : ψ.length = N) (hrect : Rect ψ N)
    (hN : N ≠ 0) {a b : ℕ} (ha : a < N) (hb : b < N) :
    ent (psiYY ψ) a b = ∑ a2 ∈ Finset.range N, (A2ker N a a2).re * ent ψ a2 b := by
  rw [psiYY_ent ψ N hψ hrect hN ha hb, collapse_col N hN ψ (wI2 N) hb]
  apply Finset.sum_congr rfl
  intro a2 _
  rw [A2ker]

lemma psiXY_ent2 {N : ℕ} (hodd : Odd N) (ψ : List (List ℝ)) (hψ : ψ.length = N)
    (hrect : Rect ψ N) {a b : ℕ} (ha : a < N) (hb : b < N) :
    ent (psiXY ψ) a b = ∑ a2 ∈ Finset.range N, ∑ b2 ∈ Finset.range N,
      (Aker N a a2).re * (Aker N b b2).re * ent ψ a2 b2 := by
  have hN : N ≠ 0 := by
    rcases hodd with ⟨t, ht⟩
    omega
  rw [psiXY_ent ψ N hψ hrect hN ha hb, Complex.re_sum]
  apply Finset.sum_congr rfl
  intro a2 _
  rw [Complex.re_sum]
  apply Finset.sum_congr rfl
  intro b2 _
  rw [Complex.re_ofReal_mul]
  have h : (Kker (wI N) N a a2 * Kker (wI N) N b b2).re
      = (Aker N a a2).re * (Aker N b b2).re := by
    rw [show Kker (wI N) N a a2 = Aker N a a2 from rfl,
      show Kker (wI N) N b b2 = Aker N b b2 from rfl,
      Complex.mul_re, Aker_im_zero hodd, Aker_im_zero hodd]
    ring
  rw [h]
  ring

/-! ### Entries of the composed 1D-operator paths -/

lemma comp_xx (ψ : List (List ℝ)) (N : ℕ) (hψ : ψ.length = N) (hrect : Rect ψ N)
    {a b : ℕ} (ha : a < N) (hb : b < N) :
    ent ((ψ.map sdF).map sdF) a b
      = ∑ b2 ∈ Finset.range N, (∑ c ∈ Finset.range N,
          (Aker N b c).re * (Aker N c b2).re) * ent ψ a b2 := by
  have hlen : (ψ.map sdF).length = N := by rw [List.length_map, hψ]
  rw [ent_map_sdF (mapsdF_rect hrect) (by rw [hlen]; exact ha) hb]
  have h : ∀ c ∈ Finset.range N, (Aker N b c).re * ent (ψ.map sdF) a c
      = (Aker N b c).re * ∑ b2 ∈ Finset.range N, (Aker N c b2).re * ent ψ a b2 := by
    intro c hc
    rw [ent_map_sdF hrect (by rw [hψ]; exact ha) (Finset.mem_range.mp hc)]
  rw [Finset.sum_congr rfl h]
  simp_rw [Finset.mul_sum]
  rw [Finset.sum_comm]
  apply Finset.sum_congr rfl
  intro b2 _
  rw [Finset.sum_mul]
  apply Finset.sum_congr rfl
  intro c _
  ring

lemma comp_yy (ψ : List (List ℝ)) (N : ℕ) (hψ : ψ.length = N) (hrect : Rect ψ N)
    (hN : N ≠ 0) {a b : ℕ} (ha : a < N) (hb : b < N) :
    ent (transposeL ((transposeL (transposeL ((transposeL ψ).map sdF))).map sdF)) a b
      = ∑ a2 ∈ Finset.range N, (∑ r ∈ Finset.range N,
          (Aker N a r).re * (Aker N r a2).re) * ent ψ a2 b := by
  have hne : ψ ≠ [] := by
    intro h
    rw [h] at hψ
    exact hN hψ.symm
  have hE1len : (transposeL ((transposeL ψ).map sdF)).length = N := by
    rw [ddyF_length hrect hne hN, hψ]
  have hE1rect : Rect (transposeL ((transposeL ψ).map sdF)) N := ddyF_rect hrect hne hN
  have hE1ne : transposeL ((transposeL ψ).map sdF) ≠ [] := by
    intro h
    apply hN
    rw [h] at hE1len
    simpa using hE1len.symm
  rw [ent_ddyF hE1rect hE1ne hN (by rw [hE1len]; exact ha) hb, hE1len]
  have h : ∀ r ∈ Finset.range N,
      (Aker N a r).re * ent (transposeL ((transposeL ψ).map sdF)) r b
      = (Aker N a r).re * ∑ a2 ∈ Finset.range N, (Aker N r a2).re * ent ψ a2 b := by
    intro r hr
    rw [ent_ddyF hrect hne hN (by rw [hψ]; exact Finset.mem_range.mp hr) hb, hψ]
  rw [Finset.sum_congr rfl h]
  simp_rw [Finset.mul_sum]
  rw [Finset.sum_comm]
  apply Finset.sum_congr rfl
  intro a2 _
  rw [Finset.sum_mul]
  apply Finset.sum_congr rfl
  intro r _
  ring

lemma comp_xy (ψ : List (List ℝ)) (N : ℕ) (hψ : ψ.length = N) (hrect : Rect ψ N)
    (hN : N ≠ 0) {a b : ℕ} (ha : a < N) (hb : b < N) :
    ent ((transposeL ((transposeL ψ).map sdF)).map sdF) a b
      = ∑ a2 ∈ Finset.range N, ∑ b2 ∈ Finset.range N,
          (Aker N a a2).re * (Aker N b b2).re * ent ψ a2 b2 := by
  have hne : ψ ≠ [] := by
    intro h
    rw [h] at hψ
    exact hN hψ.symm
  have hE1len : (transposeL ((transposeL ψ).map sdF)).length = N := by
    rw [ddyF_length hrect hne hN, hψ]
  have hE1rect : Rect (transposeL ((transposeL ψ).map sdF)) N := ddyF_rect hrect hne hN
  rw [ent_map_sdF hE1rect (by rw [hE1len]; exact ha) hb]
  have h : ∀ c ∈ Finset.range N,
      (Aker N b c).re * ent (transposeL ((transposeL ψ).map sdF)) a c
      = (Aker N b c).re * ∑ a2 ∈ Finset.range N, (Aker N a a2).re * ent ψ a2 c := by
    intro c hc
    rw [ent_ddyF hrect hne hN (by rw [hψ]; exact ha) (Finset.mem_range.mp hc), hψ]
  rw [Finset.sum_congr rfl h]
  simp_rw [Finset.mul_sum]
  rw [Finset.sum_comm]
  apply Finset.sum_congr rfl
  intro a2 _
  apply Finset.sum_congr rfl
  intro c _
  ring

/-! ### Shapes of the internal partials -/

lemma ifft2reL_sq_shape (N : ℕ) (hN : N ≠ 0) (G : ℕ → ℕ → ℂ) :
    (ifft2reL ((List.range N).map
        (fun r => (List.range N).map (fun c => G r c)))).length = N
      ∧ Rect (ifft2reL ((List.range N).map
          (fun r => (List.range N).map (fun c => G r c)))) N := by
  have hhead : (((List.range N).map
      (fun r => (List.range N).map (fun c => G r c))).headD []).length = N := by
    rw [headD_eq_getD_zero,
      getD_range_map (fun r => (List.range N).map (fun c => G r c)) (by omega) []]
    simp
  constructor
  · rw [ifft2reL]
    simp
  · intro row hrow
    rw [ifft2reL] at hrow
    rcases List.mem_map.mp hrow with ⟨a, _, rfl⟩
    rw [List.length_map, List.length_range, hhead]

lemma psiXX_shape (ψ : List (List ℝ)) (N : ℕ) (hψ : ψ.length = N) (hN : N ≠ 0) :
    (psiXX ψ).length = N ∧ Rect (psiXX ψ) N := by
  rw [psiXX, hψ]
  exact ifft2reL_sq_shape N hN _

lemma psiYY_shape (ψ : List (List ℝ)) (N : ℕ) (hψ : ψ.length = N) (hN : N ≠ 0) :
    (psiYY ψ).length = N ∧ Rect (psiYY ψ) N := by
  rw [psiYY, hψ]
  exact ifft2reL_sq_shape N hN _

lemma psiXY_shape (ψ : List (List ℝ)) (N : ℕ) (hψ : ψ.length = N) (hN : N ≠ 0) :
    (psiXY ψ).length = N ∧ Rect (psiXY ψ) N := by
  rw [psiXY, hψ]
  exact ifft2reL_sq_shape N hN _

lemma ext2_of_shape {a b : List (List ℝ)} {N M : ℕ} (ha1 : a.length = N)
    (hb1 : b.length = N) (ha2 : Rect a M) (hb2 : Rect b M)
    (h : ∀ i < N, ∀ j < M, ent a i j = ent b i j) : a = b := by
  refine ext2 (by rw [ha1, hb1]) ?_ ?_
  · intro i hi
    rw [ha2.row_length hi, hb2.row_length (by rw [hb1, ← ha1]; exact hi)]
  · intro i hi j hj
    exact h i (by rwa [ha1] at hi) j (by rwa [ha2.row_length hi] at hj)

/-- Claim C1, amended: for every square real field psi of shape (N, N) with N
odd (N at least 1), each internal second partial computed inside getOkuboWeiss
via the single 2D transform (psi_xx, psi_yy, psi_xy) agrees exactly, in the
exact-arithmetic model of the DFT, with the corresponding composition of the
1D-slice operators (ddx(ddx(psi)), ddy(ddy(psi)), ddx(ddy(psi))).  For even N
the two paths differ on Nyquist-mode content (see the counterexample). -/
theorem claim_C1_amended (ψ : List (List ℝ)) (N : ℕ) (hψ : ψ.length = N)
    (hrect : Rect ψ N) (hN : 1 ≤ N) (hodd : Odd N) :
    ∃ dx dxx ey eyy exy, ddx ψ = some dx ∧ ddx dx = some dxx ∧ psiXX ψ = dxx ∧
      ddy ψ = some ey ∧ ddy ey = some eyy ∧ psiYY ψ = eyy ∧
      ddx ey = some exy ∧ psiXY ψ = exy := by
  have hN0 : N ≠ 0 := by omega
  have hne : ψ ≠ [] := by
    intro h
    rw [h] at hψ
    exact hN0 hψ.symm
  have hrows : ∀ r ∈ ψ, r ≠ [] := hrect.rows_ne_nil hN0
  have hdxlen : (ψ.map sdF).length = N := by rw [List.length_map, hψ]
  have hdxrect : Rect (ψ.map sdF) N := mapsdF_rect hrect
  have heylen : (transposeL ((transposeL ψ).map sdF)).length = N := by
    rw [ddyF_length hrect hne hN0, hψ]
  have heyrect : Rect (transposeL ((transposeL ψ).map sdF)) N :=
    ddyF_rect hrect hne hN0
  have heyne : transposeL ((transposeL ψ).map sdF) ≠ [] := by
    intro h
    apply hN0
    rw [h] at heylen
    simpa using heylen.symm
  refine ⟨ψ.map sdF, (ψ.map sdF).map sdF, transposeL ((transposeL ψ).map sdF),
    transposeL ((transposeL (transposeL ((transposeL ψ).map sdF))).map sdF),
    (transposeL ((transposeL ψ).map sdF)).map sdF,
    ddx_eq ψ (by rw [hψ]; exact hN0) hrows,
    ddx_eq _ (by rw [hdxlen]; exact hN0) (hdxrect.rows_ne_nil hN0), ?_,
    ddy_eq ψ hrect hne hN0, ddy_eq _ heyrect heyne hN0, ?_,
    ddx_eq _ (by rw [heylen]; exact hN0) (heyrect.rows_ne_nil hN0), ?_⟩
  · refine ext2_of_shape (psiXX_shape ψ N hψ hN0).1
      (by rw [List.length_map, hdxlen]) (psiXX_shape ψ N hψ hN0).2
      (mapsdF_rect hdxrect) ?_
    intro a ha b hb
    rw [psiXX_ent2 ψ N hψ hrect hN0 ha hb, comp_xx ψ N hψ hrect ha hb]
    apply Finset.sum_congr rfl
    intro b2 _
    rw [← Aker_re_comp hodd b b2]
  · refine ext2_of_shape (psiYY_shape ψ N hψ hN0).1
      (by rw [ddyF_length heyrect heyne hN0, heylen]) (psiYY_shape ψ N hψ hN0).2
      (ddyF_rect heyrect heyne hN0) ?_
    intro a ha b hb
    rw [psiYY_ent2 ψ N hψ hrect hN0 ha hb, comp_yy ψ N hψ hrect hN0 ha hb]
    apply Finset.sum_congr rfl
    intro a2 _
    rw [← Aker_re_comp hodd a a2]
  · refine ext2_of_shape (psiXY_shape ψ N hψ hN0).1
      (by rw [List.length_map, heylen]) (psiXY_shape ψ N hψ hN0).2
      (mapsdF_rect heyrect) ?_
    intro a ha b hb
    rw [psiXY_ent2 hodd ψ hψ hrect ha hb, comp_xy ψ N hψ hrect hN0 ha hb]

/-- Claim C2: for every square real field psi of shape (N, N) with N at least 1
(so in particular for all N up to 32), setting vx = ddy(psi) and
vy = -ddx(psi), the divergence ddx(vx) + ddy(vy) is exactly zero in the
exact-arithmetic model (the mixed spectral partials commute), hence its
maximum absolute value is below 1e-10. -/
theorem claim_C2 (ψ : List (List ℝ)) (N : ℕ) (hψ : ψ.length = N) (hrect : Rect ψ N)
    (hN : 1 ≤ N) :
    ∃ vx dx dvx dvy, ddy ψ = some vx ∧ ddx ψ = some dx ∧
      ddx vx = some dvx ∧ ddy (neg2 dx) = some dvy ∧
      ∀ i < N, ∀ j < N, ent dvx i j + ent dvy i j = 0 ∧
        |ent dvx i j + ent dvy i j| < 1 / 10 ^ 10 := by
  have hN0 : N ≠ 0 := by omega
  have hne : ψ ≠ [] := by
    intro h
    rw [h] at hψ
    exact hN0 hψ.symm
  have hrows : ∀ r ∈ ψ, r ≠ [] := hrect.rows_ne_nil hN0
  have hvxlen : (transposeL ((transposeL ψ).map sdF)).length = N := by
    rw [ddyF_length hrect hne hN0, hψ]
  have hvxrect : Rect (transposeL ((transposeL ψ).map sdF)) N :=
    ddyF_rect hrect hne hN0
  have hdxlen : (ψ.map sdF).length = N := by rw [List.length_map, hψ]
  have hdxrect : Rect (ψ.map sdF) N := mapsdF_rect hrect
  have hnlen : (neg2 (ψ.map sdF)).length = N := by rw [neg2_length, hdxlen]
  have hnrect : Rect (neg2 (ψ.map sdF)) N := neg2_rect hdxrect
  have hnne : neg2 (ψ.map sdF) ≠ [] := by
    intro h
    apply hN0
    rw [h] at hnlen
    simpa using hnlen.symm
  refine ⟨transposeL ((transposeL ψ).map sdF), ψ.map sdF,
    (transposeL ((transposeL ψ).map sdF)).map sdF,
    transposeL ((transposeL (neg2 (ψ.map sdF))).map sdF),
    ddy_eq ψ hrect hne hN0, ddx_eq ψ (by rw [hψ]; exact hN0) hrows,
    ddx_eq _ (by rw [hvxlen]; exact hN0) (hvxrect.rows_ne_nil hN0),
    ddy_eq _ hnrect hnne hN0, ?_⟩
  intro i hi j hj
  have h1 : ent ((transposeL ((transposeL ψ).map sdF)).map sdF) i j
      = ∑ c ∈ Finset.range N, (Aker N j c).re *
          ∑ r ∈ Finset.range N, (Aker N i r).re * ent ψ r c := by
    rw [ent_map_sdF hvxrect (by rw [hvxlen]; exact hi) hj]
    apply Finset.sum_congr rfl
    intro c hc
    rw [ent_ddyF hrect hne hN0 (by rw [hψ]; exact hi) (Finset.mem_range.mp hc), hψ]
  have h2 : ent (transposeL ((transposeL (neg2 (ψ.map sdF))).map sdF)) i j
      = ∑ r ∈ Finset.range N, (Aker N i r).re *
          (- ∑ c ∈ Finset.range N, (Aker N j c).re * ent ψ r c) := by
    rw [ent_ddyF hnrect hnne hN0 (by rw [hnlen]; exact hi) hj, hnlen]
    apply Finset.sum_congr rfl
    intro r hr
    rw [ent_neg2 hdxrect (by rw [hdxlen]; exact Finset.mem_range.mp hr) hj,
      ent_map_sdF hrect (by rw [hψ]; exact Finset.mem_range.mp hr) hj]
  have hzero : ent ((transposeL ((transposeL ψ).map sdF)).map sdF) i j
      + ent (transposeL ((transposeL (neg2 (ψ.map sdF))).map sdF)) i j = 0 := by
    rw [h1, h2]
    have hsw : ∑ c ∈ Finset.range N, (Aker N j c).re *
        ∑ r ∈ Finset.range N, (Aker N i r).re * ent ψ r c
        = ∑ r ∈ Finset.range N, (Aker N i r).re *
            ∑ c ∈ Finset.range N, (Aker N j c).re * ent ψ r c := by
      simp_rw [Finset.mul_sum]
      rw [Finset.sum_comm]
      apply Finset.sum_congr rfl
      intro r _
      apply Finset.sum_congr rfl
      intro c _
      ring
    rw [hsw, ← Finset.sum_add_distrib]
    apply Finset.sum_eq_zero
    intro r _
    ring
  refine ⟨hzero, ?_⟩
  rw [hzero]
  norm_num

/-! ### Further utilities for the remaining claims -/

lemma signedIdx_eq_spec (N k : ℕ) : signedIdx N k = specFreqIdx N k := by
  rw [signedIdx, specFreqIdx]
  split_ifs <;> first | rfl | omega

lemma ext1 {a b : List ℝ} (hlen : a.length = b.length)
    (h : ∀ i < a.length, a.getD i 0 = b.getD i 0) : a = b := by
  apply List.ext_getElem hlen
  intro i h1 h2
  have hh := h i h1
  rwa [getD_eq_getElem_of_lt _ _ h1, getD_eq_getElem_of_lt _ _ h2] at hh

lemma bIdx_lt {n i : ℕ} (h : i < n) : bIdx n i = i := by
  rw [bIdx]
  split_ifs with h1
  · omega
  · rfl

lemma ent_map_sdF_sdVal {m : List (List ℝ)} {M : ℕ} (hrect : Rect m M) {i j : ℕ}
    (hi : i < m.length) (hj : j < M) :
    ent (m.map sdF) i j = sdVal (m.getD i []) j := by
  rw [ent, getD_map_of_lt sdF m hi [] []]
  exact sdF_getD _ (by rw [hrect.row_length hi]; exact hj)

lemma ent_ddyF_sdVal {m : List (List ℝ)} {M : ℕ} (hrect : Rect m M) (hm : m ≠ [])
    (hM : M ≠ 0) {i j : ℕ} (hi : i < m.length) (hj : j < M) :
    ent (transposeL ((transposeL m).map sdF)) i j = sdVal (colD m j) i := by
  have hhead : (m.headD []).length = M := hrect.headD_length hm
  have hTlen : (transposeL m).length = M := by rw [transposeL_length, hhead]
  have hWlen : ((transposeL m).map sdF).length = M := by rw [List.length_map, hTlen]
  rw [ent, transposeL_getD (by rw [ddyF_headD_length hrect hm hM]; exact hi)]
  rw [show (colD ((transposeL m).map sdF) i).getD j 0
      = ent ((transposeL m).map sdF) j i from colD_getD (by rw [hWlen]; exact hj) i]
  rw [ent, getD_map_of_lt sdF (transposeL m) (by rw [hTlen]; exact hj) [] []]
  rw [transposeL_getD (by rw [hhead]; exact hj)]
  exact sdF_getD _ (by rw [colD_length]; exact hi)

lemma sub2_ent {a b : List (List ℝ)} {i j : ℕ} (hia : i < a.length) (hib : i < b.length)
    (hja : j < (a.getD i []).length) (hjb : j < (b.getD i []).length) :
    ent (sub2 a b) i j = ent a i j - ent b i j := by
  have hja2 : j < a[i].length := by rwa [getD_eq_getElem_of_lt _ _ hia] at hja
  have hjb2 : j < b[i].length := by rwa [getD_eq_getElem_of_lt _ _ hib] at hjb
  have hilen : i < (List.zipWith
      (fun r s => List.zipWith (fun p q => p - q) r s) a b).length := by
    rw [List.length_zipWith]
    omega
  rw [ent, ent, ent, sub2]
  rw [getD_eq_getElem_of_lt
    (List.zipWith (fun r s => List.zipWith (fun p q => p - q) r s) a b) [] hilen]
  rw [List.getElem_zipWith]
  rw [getD_eq_getElem_of_lt (List.zipWith (fun p q => p - q) a[i] b[i]) 0
    (by rw [List.length_zipWith]; omega)]
  rw [List.getElem_zipWith]
  rw [getD_eq_getElem_of_lt a [] hia, getD_eq_getElem_of_lt b [] hib,
    getD_eq_getElem_of_lt a[i] 0 hja2, getD_eq_getElem_of_lt b[i] 0 hjb2]

lemma sub2_length (a b : List (List ℝ)) : (sub2 a b).length = min a.length b.length := by
  rw [sub2, List.length_zipWith]

lemma sub2_rect {a b : List (List ℝ)} {M : ℕ} (ha : Rect a M) (hb : Rect b M) :
    Rect (sub2 a b) M := by
  intro r hr
  rw [sub2] at hr
  rcases List.mem_iff_getElem.mp hr with ⟨i, hi, rfl⟩
  rw [List.getElem_zipWith, List.length_zipWith]
  rw [ha _ (List.getElem_mem _), hb _ (List.getElem_mem _)]
  omega

lemma npSub2_same {a b : List (List ℝ)} {N M : ℕ} (ha1 : a.length = N) (ha2 : Rect a M)
    (hb1 : b.length = N) (hb2 : Rect b M) (hN : N ≠ 0) (hM : M ≠ 0) :
    npSub2 a b = some (sub2 a b) := by
  have hane : a ≠ [] := by
    intro h
    apply hN
    rw [h] at ha1
    simpa using ha1.symm
  have hbne : b ≠ [] := by
    intro h
    apply hN
    rw [h] at hb1
    simpa using hb1.symm
  have hahead : (a.headD []).length = M := ha2.headD_length hane
  have hbhead : (b.headD []).length = M := hb2.headD_length hbne
  rw [npSub2]
  simp only [ha1, hb1, hahead, hbhead, Nat.max_self]
  rw [if_pos (by simp)]
  congr 1
  refine (ext2_of_shape (by rw [sub2_length, ha1, hb1, Nat.min_self]) (by simp)
    (sub2_rect ha2 hb2) ?_ ?_).symm
  · intro r hr
    rcases List.mem_map.mp hr with ⟨i, _, rfl⟩
    simp
  · intro i hi j hj
    conv_rhs => rw [ent]
    rw [getD_range_map _ hi, getD_range_map _ hj, bIdx_lt hi, bIdx_lt hj]
    rw [sub2_ent (by rw [ha1]; exact hi) (by rw [hb1]; exact hi)
      (by rw [ha2.row_length (by rw [ha1]; exact hi)]; exact hj)
      (by rw [hb2.row_length (by rw [hb1]; exact hi)]; exact hj)]
    rfl

/-- Claim C3: for every 1D real input of length N at least 1, spectralDeriv
returns a real sequence of length N equal to the real part of the inverse DFT
of the forward DFT with the coefficient at frequency index k multiplied by
i * (2 pi k / N), k in the standard FFT frequency ordering (non-negative on the
lower half of the index range, negative on the upper half). -/
theorem claim_C3 (x : List ℝ) (N : ℕ) (hx : x.length = N) (hN : 1 ≤ N) :
    spectralDeriv x = some (specSD x) ∧ (specSD x).length = N := by
  have hne : x ≠ [] := by
    intro h
    rw [h] at hx
    simp at hx
    omega
  constructor
  · rw [spectralDeriv_eq x hne]
    congr 1
    rw [sdF, specSD]
    apply List.map_congr_left
    intro j hj
    rw [sdVal]
    congr 2
    apply Finset.sum_congr rfl
    intro k _
    rw [wI, signedIdx_eq_spec]
    push_cast
    ring
  · rw [specSD, List.length_map, List.length_range, hx]

/-- Claim C7: for every 2D real field of shape (N, M) with N, M at least 1,
ddx returns a field of the same shape whose row i is spectralDeriv of row i of
the input (rows are independent), and ddy returns a field of the same shape
whose column j is spectralDeriv of column j of the input. -/
theorem claim_C7 (m : List (List ℝ)) (N M : ℕ) (h1 : m.length = N) (h2 : Rect m M)
    (hN : 1 ≤ N) (hM : 1 ≤ M) :
    (∃ dxo, ddx m = some dxo ∧ dxo.length = N ∧ Rect dxo M ∧
      ∀ i < N, spectralDeriv (m.getD i []) = some (dxo.getD i [])) ∧
    (∃ dyo, ddy m = some dyo ∧ dyo.length = N ∧ Rect dyo M ∧
      ∀ j < M, spectralDeriv (colD m j) = some (colD dyo j)) := by
  have hN0 : N ≠ 0 := by omega
  have hM0 : M ≠ 0 := by omega
  have hne : m ≠ [] := by
    intro h
    rw [h] at h1
    simp at h1
    omega
  constructor
  · refine ⟨m.map sdF, ddx_eq m (by rw [h1]; exact hN0) (h2.rows_ne_nil hM0),
      by rw [List.length_map, h1], mapsdF_rect h2, ?_⟩
    intro i hi
    rw [spectralDeriv_eq _ (h2.rows_ne_nil hM0 _
      (by rw [getD_eq_getElem_of_lt m [] (by rw [h1]; exact hi)]
          exact List.getElem_mem _))]
    congr 1
    rw [getD_map_of_lt sdF m (by rw [h1]; exact hi) [] []]
  · refine ⟨transposeL ((transposeL m).map sdF), ddy_eq m h2 hne hM0,
      by rw [ddyF_length h2 hne hM0, h1], ddyF_rect h2 hne hM0, ?_⟩
    intro j hj
    have hcolne : colD m j ≠ [] := by
      intro h
      apply hN0
      have := congrArg List.length h
      rw [colD_length] at this
      rw [← h1]
      simpa using this
    rw [spectralDeriv_eq _ hcolne]
    congr 1
    refine ext1 (by rw [sdF_length, colD_length, colD_length,
      ddyF_length h2 hne hM0]) ?_
    intro i hi
    rw [sdF_length, colD_length] at hi
    have hi2 : i < (transposeL ((transposeL m).map sdF)).length := by
      rw [ddyF_length h2 hne hM0]
      exact hi
    rw [sdF_getD _ (by rw [colD_length]; exact hi)]
    rw [colD_getD hi2 j]
    rw [ent_ddyF_sdVal h2 hne hM0 hi hj]

/-- Claim C8: for every 2D real field f, ddy f equals the transpose of
ddx applied to the transpose of f (the source computes ddy by exactly this
transpose-differentiate-transpose scheme). -/
theorem claim_C8 (f : List (List ℝ)) :
    ddy f = Option.map transposeL (ddx (transposeL f)) := by
  rw [ddy, ddx]
  by_cases h : (transposeL f).length = 0
  · rw [if_pos h, if_pos h]
    rfl
  · rw [if_neg h, if_neg h]

/-- Claim C9: for every pair of velocity-component fields vx, vy of identical
shape (N, M) with N, M at least 1, getVorticity returns exactly
ddx(vy) - ddy(vx) elementwise, with no additional normalization. -/
theorem claim_C9 (vx vy : List (List ℝ)) (N M : ℕ) (h1 : vx.length = N)
    (h2 : Rect vx M) (h3 : vy.length = N) (h4 : Rect vy M) (hN : 1 ≤ N)
    (hM : 1 ≤ M) :
    ∃ a b, ddx vy = some a ∧ ddy vx = some b ∧
      getVorticity vx vy = some (sub2 a b) ∧ a.length = N ∧ b.length = N ∧
      Rect a M ∧ Rect b M ∧
      ∀ i < N, ∀ j < M, ent (sub2 a b) i j = ent a i j - ent b i j := by
  have hN0 : N ≠ 0 := by omega
  have hM0 : M ≠ 0 := by omega
  have hvxne : vx ≠ [] := by
    intro h
    rw [h] at h1
    simp at h1
    omega
  have ha : ddx vy = some (vy.map sdF) :=
    ddx_eq vy (by rw [h3]; exact hN0) (h4.rows_ne_nil hM0)
  have hb : ddy vx = some (transposeL ((transposeL vx).map sdF)) :=
    ddy_eq vx h2 hvxne hM0
  have halen : (vy.map sdF).length = N := by rw [List.length_map, h3]
  have harect : Rect (vy.map sdF) M := mapsdF_rect h4
  have hblen : (transposeL ((transposeL vx).map sdF)).length = N := by
    rw [ddyF_length h2 hvxne hM0, h1]
  have hbrect : Rect (transposeL ((transposeL vx).map sdF)) M :=
    ddyF_rect h2 hvxne hM0
  refine ⟨vy.map sdF, transposeL ((transposeL vx).map sdF), ha, hb, ?_, halen,
    hblen, harect, hbrect, ?_⟩
  · rw [getVorticity, ha, hb]
    exact npSub2_same halen harect hblen hbrect hN0 hM0
  · intro i hi j hj
    exact sub2_ent (by rw [halen]; exact hi) (by rw [hblen]; exact hi)
      (by rw [harect.row_length (by rw [halen]; exact hi)]; exact hj)
      (by rw [hbrect.row_length (by rw [hblen]; exact hi)]; exact hj)

/-- Claim C4: for every square real field psi of shape (N, N) with N at least
1, getOkuboWeiss returns Q = psi_xy^2 - psi_xx * psi_yy with the three second
partials obtained from one forward 2D transform and three inverse transforms
whose coefficients are multiplied by (i 2 pi kx)(i 2 pi ky), (i 2 pi kx)^2 and
(i 2 pi ky)^2, kx varying along the column axis and ky along the row axis,
each with angular frequency 2 pi k / N in standard FFT mode ordering at the
matching (row, col) position of the transform of psi. -/
theorem claim_C4 (ψ : List (List ℝ)) (N : ℕ) (hψ : ψ.length = N) (hrect : Rect ψ N)
    (hN : 1 ≤ N) : getOkuboWeiss ψ = some (owSpec ψ) := by
  have hN0 : N ≠ 0 := by omega
  have hne : ψ ≠ [] := by
    intro h
    rw [h] at hψ
    simp at hψ
    omega
  have hhead : (ψ.headD []).length = N := hrect.headD_length hne
  have hcond : ¬ (ψ.length = 0 ∨ (ψ.headD []).length = 0) := by
    rw [hψ, hhead]
    push_neg
    exact ⟨hN0, hN0⟩
  rw [getOkuboWeiss, if_neg hcond]
  simp only [owSpec]
  rw [hψ]
  have hXYl : psiXY ψ = ifft2reL ((List.range N).map (fun r =>
      (List.range N).map (fun c =>
        Complex.I * ((2 * Real.pi * (specFreqIdx N c : ℝ) / N : ℝ) : ℂ) *
          (Complex.I * ((2 * Real.pi * (specFreqIdx N r : ℝ) / N : ℝ) : ℂ)) *
          ((fft2L ψ).getD r []).getD c 0))) := by
    rw [psiXY, hψ]
    congr 1
    apply List.map_congr_left
    intro r hr
    apply List.map_congr_left
    intro c hc
    rw [List.mem_range] at hr hc
    rw [npFftfreq_getD _ hc, npFftfreq_getD _ hr]
    simp only [signedIdx_eq_spec]
    push_cast
    ring
  have hXXl : psiXX ψ = ifft2reL ((List.range N).map (fun r =>
      (List.range N).map (fun c =>
        (Complex.I * ((2 * Real.pi * (specFreqIdx N c : ℝ) / N : ℝ) : ℂ)) ^ 2 *
          ((fft2L ψ).getD r []).getD c 0))) := by
    rw [psiXX, hψ]
    congr 1
    apply List.map_congr_left
    intro r hr
    apply List.map_congr_left
    intro c hc
    rw [List.mem_range] at hr hc
    rw [npFftfreq_getD _ hc]
    simp only [signedIdx_eq_spec]
    push_cast
    ring
  have hYYl : psiYY ψ = ifft2reL ((List.range N).map (fun r =>
      (List.range N).map (fun c =>
        (Complex.I * ((2 * Real.pi * (specFreqIdx N r : ℝ) / N : ℝ) : ℂ)) ^ 2 *
          ((fft2L ψ).getD r []).getD c 0))) := by
    rw [psiYY, hψ]
    congr 1
    apply List.map_congr_left
    intro r hr
    apply List.map_congr_left
    intro c hc
    rw [List.mem_range] at hr hc
    rw [npFftfreq_getD _ hr]
    simp only [signedIdx_eq_spec]
    push_cast
    ring
  rw [hXYl, hXXl, hYYl]
  congr 1
  apply List.map_congr_left
  intro a _
  apply List.map_congr_left
  intro b _
  ring

/-! ### Fold-max utilities for the random stream function -/

lemma le_foldr_max {l : List ℝ} {a : ℝ} (h : a ∈ l) (b : ℝ) : a ≤ l.foldr max b := by
  induction l with
  | nil => cases h
  | cons c t ih =>
    rw [List.foldr_cons]
    rcases List.mem_cons.mp h with h1 | h1
    · rw [h1]
      exact le_max_left _ _
    · exact le_trans (ih h1) (le_max_right _ _)

lemma seed_le_foldr_max (l : List ℝ) (b : ℝ) : b ≤ l.foldr max b := by
  induction l with
  | nil => exact le_refl b
  | cons c t ih => exact le_trans ih (le_max_right _ _)

lemma foldr_max_le {l : List ℝ} {b c : ℝ} (hb : b ≤ c) (h : ∀ a ∈ l, a ≤ c) :
    l.foldr max b ≤ c := by
  induction l with
  | nil => exact hb
  | cons d t ih =>
    rw [List.foldr_cons]
    exact max_le (h d (by simp)) (ih (fun a ha => h a (by simp [ha])))

lemma foldr_max_cases (l : List ℝ) (b : ℝ) :
    l.foldr max b = b ∨ ∃ a ∈ l, l.foldr max b = a := by
  induction l with
  | nil => exact Or.inl rfl
  | cons c t ih =>
    rw [List.foldr_cons]
    rcases max_choice c (t.foldr max b) with h | h
    · exact Or.inr ⟨c, by simp, h⟩
    · rw [h]
      rcases ih with h1 | ⟨a, ha, h1⟩
      · exact Or.inl h1
      · exact Or.inr ⟨a, by simp [ha], h1⟩

lemma foldr_max_div (l : List ℝ) (M : ℝ) (hM : 0 < M) :
    (l.map (fun a => a / M)).foldr max 0 = (l.foldr max 0) / M := by
  induction l with
  | nil => simp
  | cons c t ih =>
    rw [List.map_cons, List.foldr_cons, List.foldr_cons, ih,
      max_div_div_right (le_of_lt hM)]

lemma maxAbs2_nonneg (m : List (List ℝ)) : 0 ≤ maxAbs2 m :=
  seed_le_foldr_max _ 0

lemma abs_le_maxAbs2 {m : List (List ℝ)} {r : List ℝ} {x : ℝ} (hr : r ∈ m)
    (hx : x ∈ r) : |x| ≤ maxAbs2 m := by
  have h1 : |x| ≤ (r.map (fun a => |a|)).foldr max 0 :=
    le_foldr_max (List.mem_map_of_mem _ hx) 0
  have h2 : (r.map (fun a => |a|)).foldr max 0 ≤ maxAbs2 m := by
    rw [maxAbs2]
    exact le_foldr_max
      (List.mem_map_of_mem (fun r => (r.map (fun a => |a|)).foldr max 0) hr) 0
  exact le_trans h1 h2

lemma maxAbs2_attained {m : List (List ℝ)} (h : maxAbs2 m ≠ 0) :
    ∃ r ∈ m, ∃ x ∈ r, |x| = maxAbs2 m := by
  rcases foldr_max_cases (m.map (fun r => (r.map (fun a => |a|)).foldr max 0)) 0
    with h1 | ⟨v, hv, h1⟩
  · exact absurd h1 h
  · rcases List.mem_map.mp hv with ⟨r, hr, rfl⟩
    rcases foldr_max_cases (r.map (fun a => |a|)) 0 with h2 | ⟨w, hw, h2⟩
    · rw [h2] at h1
      exact absurd h1 h
    · rcases List.mem_map.mp hw with ⟨x, hx, rfl⟩
      exact ⟨r, hr, x, hx, by rw [maxAbs2, h1, h2]⟩

lemma maxAbs2_div (m : List (List ℝ)) (M : ℝ) (hM : 0 < M) :
    maxAbs2 (m.map (fun r => r.map (fun a => a / M))) = maxAbs2 m / M := by
  rw [maxAbs2, maxAbs2, List.map_map, ← foldr_max_div _ M hM, List.map_map]
  congr 1
  apply List.map_congr_left
  intro r _
  simp only [Function.comp]
  rw [List.map_map, ← foldr_max_div _ M hM, List.map_map]
  congr 1
  apply List.map_congr_left
  intro x _
  simp only [Function.comp]
  rw [abs_div, abs_of_pos hM]

/-- Claim C6: getRandomStreamFunction fails with a domain error exactly when
the smoothed noise field (its pattern input, standing for the output of the
external random and filter stages) has maximum absolute value exactly 0; in
every non-degenerate case it returns an N by N field whose values lie in
[-1, 1] and whose maximum absolute value equals 1, with no division-by-zero
artifact. -/
theorem claim_C6 (p : List (List ℝ)) (N : ℕ) (h1 : p.length = N) (h2 : Rect p N)
    (hN : 1 ≤ N) :
    (getRandomStreamFunction p = none ↔ maxAbs2 p = 0) ∧
    (maxAbs2 p ≠ 0 →
      ∃ ψ, getRandomStreamFunction p = some ψ ∧ ψ.length = N ∧ Rect ψ N ∧
        (∀ r ∈ ψ, ∀ x ∈ r, -1 ≤ x ∧ x ≤ 1) ∧ maxAbs2 ψ = 1) := by
  constructor
  · rw [getRandomStreamFunction]
    split_ifs with h
    · simp [h]
    · simp [h]
  · intro h
    have hpos : 0 < maxAbs2 p := lt_of_le_of_ne (maxAbs2_nonneg p) (Ne.symm h)
    refine ⟨p.map (fun r => r.map (fun a => a / maxAbs2 p)), ?_, ?_, ?_, ?_, ?_⟩
    · rw [getRandomStreamFunction, if_neg h]
    · rw [List.length_map, h1]
    · intro r hr
      rcases List.mem_map.mp hr with ⟨s, hs, rfl⟩
      rw [List.length_map]
      exact h2 s hs
    · intro r hr x hx
      rcases List.mem_map.mp hr with ⟨s, hs, rfl⟩
      rcases List.mem_map.mp hx with ⟨y, hy, rfl⟩
      have hb : |y| ≤ maxAbs2 p := abs_le_maxAbs2 hs hy
      have habs : |y / maxAbs2 p| ≤ 1 := by
        rw [abs_div, abs_of_pos hpos]
        exact (div_le_one hpos).mpr hb
      exact abs_le.mp habs
    · rw [maxAbs2_div p (maxAbs2 p) hpos, div_self h]

/-- Claim C5, amended: getVorticity performs no shape check before computing;
both derivative fields are always computed, and a shape mismatch surfaces only
at the final elementwise subtraction under numpy broadcasting.  The call
raises exactly when the two derivative shapes are not broadcast-compatible;
mismatched but compatible shapes broadcast silently (see the counterexample). -/
theorem claim_C5_amended (vx vy : List (List ℝ)) (n1 m1 n2 m2 : ℕ)
    (h1 : vx.length = n1) (h2 : Rect vx m1) (h3 : vy.length = n2)
    (h4 : Rect vy m2) (hn1 : 1 ≤ n1) (hm1 : 1 ≤ m1) (hn2 : 1 ≤ n2)
    (hm2 : 1 ≤ m2) :
    getVorticity vx vy = none ↔
      ¬ ((n2 = n1 ∨ n2 = 1 ∨ n1 = 1) ∧ (m2 = m1 ∨ m2 = 1 ∨ m1 = 1)) := by
  have hvxne : vx ≠ [] := by
    intro h
    rw [h] at h1
    simp at h1
    omega
  have ha : ddx vy = some (vy.map sdF) :=
    ddx_eq vy (by rw [h3]; omega) (h4.rows_ne_nil (by omega))
  have hb : ddy vx = some (transposeL ((transposeL vx).map sdF)) :=
    ddy_eq vx h2 hvxne (by omega)
  have halen : (vy.map sdF).length = n2 := by rw [List.length_map, h3]
  have hane : vy.map sdF ≠ [] := by
    intro h
    rw [h] at halen
    simp at halen
    omega
  have haheadlen : ((vy.map sdF).headD []).length = m2 :=
    (mapsdF_rect h4).headD_length hane
  have hblen : (transposeL ((transposeL vx).map sdF)).length = n1 := by
    rw [ddyF_length h2 hvxne (by omega), h1]
  have hbne : transposeL ((transposeL vx).map sdF) ≠ [] := by
    intro h
    rw [h] at hblen
    simp at hblen
    omega
  have hbhead : ((transposeL ((transposeL vx).map sdF)).headD []).length = m1 :=
    (ddyF_rect h2 hvxne (by omega)).headD_length hbne
  rw [getVorticity, ha, hb]
  show npSub2 (vy.map sdF) (transposeL ((transposeL vx).map sdF)) = none ↔ _
  rw [npSub2]
  simp only [halen, haheadlen, hblen, hbhead]
  split_ifs with hc
  · simp [hc]
  · simp [hc]

/-! ### Concrete evaluations on small inputs -/

lemma sdF_zero2 : sdF [(0 : ℝ), 0] = [0, 0] := by
  norm_num [sdF, sdVal, dftVal, List.range_succ, Finset.sum_range_succ,
    List.getD_cons_zero, List.getD_cons_succ]

lemma sdF_zero1 : sdF [(0 : ℝ)] = [0] := by
  norm_num [sdF, sdVal, dftVal, List.range_succ, Finset.sum_range_succ,
    List.getD_cons_zero, List.getD_cons_succ]

lemma spectralDeriv_zero2 : spectralDeriv [(0 : ℝ), 0] = some [0, 0] := by
  rw [spectralDeriv_eq _ (by simp), sdF_zero2]

lemma spectralDeriv_zero1 : spectralDeriv [(0 : ℝ)] = some [0] := by
  rw [spectralDeriv_eq _ (by simp), sdF_zero1]

lemma ddx_zz : ddx [[(0 : ℝ), 0], [0, 0]] = some [[0, 0], [0, 0]] := by
  rw [ddx, if_neg (by norm_num)]
  simp [sdRows, spectralDeriv_zero2]

lemma transposeL_12 : transposeL [[(0 : ℝ), 0]] = [[0], [0]] := by
  norm_num [transposeL, List.range_succ, List.getD_cons_zero, List.getD_cons_succ]

lemma transposeL_21 : transposeL [[(0 : ℝ)], [0]] = [[0, 0]] := by
  norm_num [transposeL, List.range_succ, List.getD_cons_zero, List.getD_cons_succ]

lemma ddy_vx0 : ddy [[(0 : ℝ), 0]] = some [[0, 0]] := by
  rw [ddy, transposeL_12, if_neg (by norm_num)]
  simp [sdRows, spectralDeriv_zero1, transposeL_21]

lemma npSub2_cex : npSub2 [[(0 : ℝ), 0], [0, 0]] [[(0 : ℝ), 0]] = some [[0, 0], [0, 0]] := by
  rw [npSub2]
  norm_num [bIdx, List.range_succ, List.getD_cons_zero, List.getD_cons_succ]

/-- Claim C5, counterexample: for vx of shape (1, 2) and vy of shape (2, 2),
whose shapes differ, getVorticity does not fail: numpy broadcasting silently
produces a (2, 2) result. -/
theorem claim_C5_counterexample :
    getVorticity [[(0 : ℝ), 0]] [[(0 : ℝ), 0], [0, 0]] = some [[0, 0], [0, 0]] ∧
    ([[(0 : ℝ), 0]] : List (List ℝ)).length ≠
      ([[(0 : ℝ), 0], [0, 0]] : List (List ℝ)).length := by
  constructor
  · rw [getVorticity, ddx_zz, ddy_vx0]
    exact npSub2_cex
  · norm_num

lemma eN_two_one : eN 2 1 = -1 := by
  rw [eN]
  convert Complex.exp_pi_mul_I using 2
  push_cast
  ring

lemma wI_two_zero : wI 2 0 = 0 := by
  rw [wI, signedIdx_zero (by norm_num)]
  norm_num

lemma wI_two_one : wI 2 1 = -(Real.pi : ℂ) * Complex.I := by
  have h : signedIdx 2 1 = -1 := by decide
  rw [wI, h]
  push_cast
  ring

lemma dftVal_ten (k : ℕ) : dftVal [(1 : ℝ), 0] k = 1 := by
  norm_num [dftVal, Finset.sum_range_succ, List.getD_cons_zero,
    List.getD_cons_succ, eN_zero]

lemma sdF_ten : sdF [(1 : ℝ), 0] = [0, 0] := by
  rw [sdF]
  norm_num [sdVal, dftVal_ten, List.range_succ, Finset.sum_range_succ,
    wI_two_zero, wI_two_one, eN_zero, eN_two_one, re_div_natCast, Complex.mul_re]

lemma spectralDeriv_ten : spectralDeriv [(1 : ℝ), 0] = some [0, 0] := by
  rw [spectralDeriv_eq _ (by simp), sdF_ten]

lemma ddx_ten : ddx [[(1 : ℝ), 0], [0, 0]] = some [[0, 0], [0, 0]] := by
  rw [ddx, if_neg (by norm_num)]
  simp [sdRows, spectralDeriv_ten, spectralDeriv_zero2]

lemma A2ker_two : (A2ker 2 0 0).re = -(Real.pi ^ 2) / 2 := by
  rw [A2ker, Kker]
  norm_num [Finset.sum_range_succ, wI2, wI_two_zero, wI_two_one, eN_zero,
    re_div_natCast, pow_two, Complex.mul_re, Complex.mul_im]

lemma ent_psiXX_cex : ent (psiXX [[(1 : ℝ), 0], [0, 0]]) 0 0 = -(Real.pi ^ 2) / 2 := by
  have hrect : Rect [[(1 : ℝ), 0], [0, 0]] 2 := by decide
  rw [psiXX_ent2 [[(1 : ℝ), 0], [0, 0]] 2 rfl hrect (by norm_num) (by norm_num)
    (by norm_num)]
  rw [Finset.sum_range_succ, Finset.sum_range_one]
  norm_num [ent, List.getD_cons_zero, List.getD_cons_succ, A2ker_two]

/-- Claim C1, counterexample: at N = 2 (even) with psi = [[1,0],[0,0]], the
composed path ddx(ddx(psi)) yields the zero field while the internal psi_xx of
getOkuboWeiss is nonzero (entry (0,0) equals -pi^2/2): the two differentiation
paths disagree by an amount far above any 1e-8 tolerance, exactly (in the
exact-arithmetic model of the DFT). -/
theorem claim_C1_counterexample :
    ddx [[(1 : ℝ), 0], [0, 0]] = some [[0, 0], [0, 0]] ∧
    ddx [[(0 : ℝ), 0], [0, 0]] = some [[0, 0], [0, 0]] ∧
    psiXX [[(1 : ℝ), 0], [0, 0]] ≠ [[0, 0], [0, 0]] := by
  refine ⟨ddx_ten, ddx_zz, ?_⟩
  intro hcon
  have h := ent_psiXX_cex
  rw [hcon] at h
  norm_num [ent, List.getD_cons_zero] at h
  have hpi := Real.pi_pos
  nlinarith

/-- Claim C10, counterexample: applied to the empty sequence, spectralDeriv
does not return the empty sequence; the underlying FFT library call rejects
length-0 input and the call raises (modelled by none). -/
theorem claim_C10_counterexample : spectralDeriv ([] : List ℝ) = none := rfl

/-- Claim C10, amended: spectralDeriv has no explicit degenerate-size
handling.  For N = 1 the zero sequence falls out of the library call without
error, but for N = 0 the underlying FFT call rejects the empty input and the
call raises (none). -/
theorem claim_C10_amended :
    spectralDeriv ([] : List ℝ) = none ∧ ∀ x : ℝ, spectralDeriv [x] = some [0] := by
  refine ⟨rfl, fun x => ?_⟩
  rw [spectralDeriv_eq [x] (by simp)]
  congr 1
  rw [sdF]
  norm_num [sdVal, wI, signedIdx, List.range_succ, Finset.sum_range_one]

/-- Witness for claim C1 (amended): the hypotheses are satisfiable, at the odd
size N = 1. -/
theorem claim_C1_witness :
    ([[(1 : ℝ)]] : List (List ℝ)).length = 1 ∧ Rect [[(1 : ℝ)]] 1 ∧ 1 ≤ 1 ∧ Odd 1 ∧
    (∃ dx dxx ey eyy exy, ddx [[(1 : ℝ)]] = some dx ∧ ddx dx = some dxx ∧
      psiXX [[(1 : ℝ)]] = dxx ∧ ddy [[(1 : ℝ)]] = some ey ∧ ddy ey = some eyy ∧
      psiYY [[(1 : ℝ)]] = eyy ∧ ddx ey = some exy ∧ psiXY [[(1 : ℝ)]] = exy) :=
  ⟨rfl, by decide, by decide, ⟨0, by norm_num⟩,
    claim_C1_amended [[(1 : ℝ)]] 1 rfl (by decide) (by decide) ⟨0, by norm_num⟩⟩

/-- Witness for claim C2: the hypotheses are satisfiable, at N = 1. -/
theorem claim_C2_witness :
    ([[(1 : ℝ)]] : List (List ℝ)).length = 1 ∧ Rect [[(1 : ℝ)]] 1 ∧ 1 ≤ 1 ∧
    (∃ vx dx dvx dvy, ddy [[(1 : ℝ)]] = some vx ∧ ddx [[(1 : ℝ)]] = some dx ∧
      ddx vx = some dvx ∧ ddy (neg2 dx) = some dvy ∧
      ∀ i < 1, ∀ j < 1, ent dvx i j + ent dvy i j = 0 ∧
        |ent dvx i j + ent dvy i j| < 1 / 10 ^ 10) :=
  ⟨rfl, by decide, by decide, claim_C2 [[(1 : ℝ)]] 1 rfl (by decide) (by decide)⟩

/-- Witness for claim C3: the hypotheses are satisfiable, at N = 2. -/
theorem claim_C3_witness :
    ([(1 : ℝ), 2] : List ℝ).length = 2 ∧ 1 ≤ 2 ∧
    (spectralDeriv [(1 : ℝ), 2] = some (specSD [(1 : ℝ), 2]) ∧
      (specSD [(1 : ℝ), 2]).length = 2) :=
  ⟨rfl, by decide, claim_C3 [(1 : ℝ), 2] 2 rfl (by decide)⟩

/-- Witness for claim C4: the hypotheses are satisfiable, at N = 1. -/
theorem claim_C4_witness :
    ([[(1 : ℝ)]] : List (List ℝ)).length = 1 ∧ Rect [[(1 : ℝ)]] 1 ∧ 1 ≤ 1 ∧
    getOkuboWeiss [[(1 : ℝ)]] = some (owSpec [[(1 : ℝ)]]) :=
  ⟨rfl, by decide, by decide, claim_C4 [[(1 : ℝ)]] 1 rfl (by decide) (by decide)⟩

/-- Witness for claim C5 (amended): the hypotheses are satisfiable, with
shapes (1, 1) and (2, 1). -/
theorem claim_C5_witness :
    ([[(1 : ℝ)]] : List (List ℝ)).length = 1 ∧ Rect [[(1 : ℝ)]] 1 ∧
    ([[(1 : ℝ)], [(1 : ℝ)]] : List (List ℝ)).length = 2 ∧
    Rect [[(1 : ℝ)], [(1 : ℝ)]] 1 ∧ 1 ≤ 1 ∧ 1 ≤ 1 ∧ 1 ≤ 2 ∧ 1 ≤ 1 ∧
    (getVorticity [[(1 : ℝ)]] [[(1 : ℝ)], [(1 : ℝ)]] = none ↔
      ¬ ((2 = 1 ∨ 2 = 1 ∨ 1 = 1) ∧ (1 = 1 ∨ 1 = 1 ∨ 1 = 1))) :=
  ⟨rfl, by decide, rfl, by decide, by decide, by decide, by decide, by decide,
    claim_C5_amended [[(1 : ℝ)]] [[(1 : ℝ)], [(1 : ℝ)]] 1 1 2 1 rfl (by decide)
      rfl (by decide) (by decide) (by decide) (by decide) (by decide)⟩

/-- Witness for claim C6: the hypotheses are satisfiable, at N = 1. -/
theorem claim_C6_witness :
    ([[(1 : ℝ)]] : List (List ℝ)).length = 1 ∧ Rect [[(1 : ℝ)]] 1 ∧ 1 ≤ 1 ∧
    ((getRandomStreamFunction [[(1 : ℝ)]] = none ↔ maxAbs2 [[(1 : ℝ)]] = 0) ∧
      (maxAbs2 [[(1 : ℝ)]] ≠ 0 →
        ∃ ψ, getRandomStreamFunction [[(1 : ℝ)]] = some ψ ∧ ψ.length = 1 ∧
          Rect ψ 1 ∧ (∀ r ∈ ψ, ∀ x ∈ r, -1 ≤ x ∧ x ≤ 1) ∧ maxAbs2 ψ = 1)) :=
  ⟨rfl, by decide, by decide, claim_C6 [[(1 : ℝ)]] 1 rfl (by decide) (by decide)⟩

/-- Witness for claim C7: the hypotheses are satisfiable, at shape (1, 1). -/
theorem claim_C7_witness :
    ([[(1 : ℝ)]] : List (List ℝ)).length = 1 ∧ Rect [[(1 : ℝ)]] 1 ∧ 1 ≤ 1 ∧ 1 ≤ 1 ∧
    ((∃ dxo, ddx [[(1 : ℝ)]] = some dxo ∧ dxo.length = 1 ∧ Rect dxo 1 ∧
        ∀ i < 1, spectralDeriv ([[(1 : ℝ)]].getD i []) = some (dxo.getD i [])) ∧
      (∃ dyo, ddy [[(1 : ℝ)]] = some dyo ∧ dyo.length = 1 ∧ Rect dyo 1 ∧
        ∀ j < 1, spectralDeriv (colD [[(1 : ℝ)]] j) = some (colD dyo j))) :=
  ⟨rfl, by decide, by decide, by decide,
    claim_C7 [[(1 : ℝ)]] 1 1 rfl (by decide) (by decide) (by decide)⟩

/-- Witness for claim C9: the hypotheses are satisfiable, at shape (1, 1). -/
theorem claim_C9_witness :
    ([[(1 : ℝ)]] : List (List ℝ)).length = 1 ∧ Rect [[(1 : ℝ)]] 1 ∧
    ([[(2 : ℝ)]] : List (List ℝ)).length = 1 ∧ Rect [[(2 : ℝ)]] 1 ∧ 1 ≤ 1 ∧ 1 ≤ 1 ∧
    (∃ a b, ddx [[(2 : ℝ)]] = some a ∧ ddy [[(1 : ℝ)]] = some b ∧
      getVorticity [[(1 : ℝ)]] [[(2 : ℝ)]] = some (sub2 a b) ∧ a.length = 1 ∧
      b.length = 1 ∧ Rect a 1 ∧ Rect b 1 ∧
      ∀ i < 1, ∀ j < 1, ent (sub2 a b) i j = ent a i j - ent b i j) :=
  ⟨rfl, by decide, rfl, by decide, by decide, by decide,
    claim_C9 [[(1 : ℝ)]] [[(2 : ℝ)]] 1 1 rfl (by decide) rfl (by decide)
      (by decide) (by decide)⟩
